import Mathlib

/-!
Verification of the compare50 HTML renderer core
(`compare50/html_renderer/renderer.py`) against its specification.

Strings are modelled as `List Char`; machine integers are `ℕ`/`ℤ`.
Python `set` objects are modelled as duplicate-free lists in insertion
order (Python set iteration order is unspecified; the spec, §8, fixes
ties "stable by insertion", which this model realises), and Python's
stable `sorted` is modelled by `List.insertionSort` with the
corresponding total preorder — any two stable sorts by the same key
agree.  Reading a file from disk (`open(file.path).read()`) is
modelled by a `text` field carried on the `File` record.
-/

namespace Compare50

/-- Models Python `str.splitlines` line-break characters
(`\n`, `\r`, and the further Unicode line boundaries). -/
def isLineBreak (c : Char) : Bool :=
  c == '\n' || c == '\r' || c == '\x0b' || c == '\x0c' ||
  c == '\x1c' || c == '\x1d' || c == '\x1e' || c == '\x85' ||
  c == ' ' || c == ' '

/-- Models Python `str.splitlines(True)` (keepends): `acc` is the
reversed current line, the second argument the remaining characters.
`"\r\n"` counts as a single line terminator. -/
def splitlinesAux : List Char → List Char → List (List Char)
  | acc, [] => if acc = [] then [] else [acc.reverse]
  | acc, '\r' :: '\n' :: rest => (acc.reverse ++ ['\r', '\n']) :: splitlinesAux [] rest
  | acc, c :: rest =>
      if isLineBreak c then (acc.reverse ++ [c]) :: splitlinesAux [] rest
      else splitlinesAux (c :: acc) rest

/-- Models Python `str.splitlines(True)`. -/
def splitlines (l : List Char) : List (List Char) := splitlinesAux [] l

/-- A `Span` as consumed by the renderer: a half-open character
interval `[start, end)` into one file (external input type). -/
structure Span where
  file : ℕ
  start : ℕ
  «end» : ℕ
deriving DecidableEq

/-- Python `set.add` on an insertion-ordered duplicate-free list. -/
def setAdd [DecidableEq α] (xs : List α) (x : α) : List α :=
  if x ∈ xs then xs else xs ++ [x]

/-- Python `set |= other` on insertion-ordered duplicate-free lists. -/
def setUnion [DecidableEq α] (xs ys : List α) : List α :=
  xs ++ ys.filter (fun y => decide (y ∉ xs))

/-- Python `set -= other` on insertion-ordered duplicate-free lists. -/
def setDiff [DecidableEq α] (xs ys : List α) : List α :=
  xs.filter (fun x => decide (x ∉ ys))

/-- A source file handed to the renderer; `text` models the content
read from `file.path`. -/
structure File where
  id : ℕ
  name : List Char
  text : List Char
deriving DecidableEq

/-- `Fragment` from renderer.py: `content` is the sliced text split
into lines (the `attr` converter applies `splitlines(True)`), `spans`
the spans covering the fragment. -/
structure Fragment where
  content : List (List Char)
  spans : List Span
deriving DecidableEq

/-- The `Fragment(...)` constructor including its content converter. -/
def Fragment.make (content : List Char) (spans : List Span) : Fragment :=
  ⟨splitlines content, spans⟩

/-- State of `_FragmentSlicer`: the set of slicing marks and the
`defaultdict(set)` maps from offsets to spans starting/ending there. -/
structure FragmentSlicer where
  slicing_marks : List ℕ
  start_to_spans : ℕ → List Span
  end_to_spans : ℕ → List Span

/-- `_FragmentSlicer.__init__`. -/
def FragmentSlicer.init : FragmentSlicer := ⟨[], fun _ => [], fun _ => []⟩

/-- `_FragmentSlicer.add_span`. -/
def add_span (sl : FragmentSlicer) (span : Span) : FragmentSlicer :=
  ⟨setAdd (setAdd sl.slicing_marks span.start) span.«end»,
   fun k => if k = span.start then setAdd (sl.start_to_spans k) span else sl.start_to_spans k,
   fun k => if k = span.«end» then setAdd (sl.end_to_spans k) span else sl.end_to_spans k⟩

/-- Key used by `slice` to sort a fragment's spans:
`span.end - span.start` (Python int subtraction). -/
def span_key (s : Span) : ℤ := (s.«end» : ℤ) - (s.start : ℤ)

/-- The ordering of `sorted(..., key=lambda span: span.end - span.start,
reverse=True)`: descending by span length. -/
def spanOrder (a b : Span) : Prop := span_key b ≤ span_key a

instance : DecidableRel spanOrder :=
  fun a b => decidable_of_iff (span_key b ≤ span_key a) Iff.rfl

/-- Python's stable `sorted(fragment_spans, key=..., reverse=True)`. -/
def sortSpansByLength (l : List Span) : List Span := List.insertionSort spanOrder l

/-- One iteration of the active-span loop in `_FragmentSlicer.slice`:
`cur = set(spans[-1]); cur |= start_to_spans[mark]; cur -= end_to_spans[mark]`. -/
def activeStep (sl : FragmentSlicer) (acc : List Span) (mark : ℕ) : List Span :=
  setDiff (setUnion acc (sl.start_to_spans mark)) (sl.end_to_spans mark)

/-- The `for mark in slicing_marks` loop of `_FragmentSlicer.slice`,
producing the list of active-span sets appended after the seed. -/
def activeLoop (sl : FragmentSlicer) (acc : List Span) : List ℕ → List (List Span)
  | [] => []
  | mark :: rest => activeStep sl acc mark :: activeLoop sl (activeStep sl acc mark) rest

/-- The `for fragment_spans, mark in zip(spans, slicing_marks)` loop of
`_FragmentSlicer.slice` with the threaded `start_mark`;
`content[start_mark:mark]` is `(content.drop start_mark).take (mark - start_mark)`. -/
def fragsLoop (content : List Char) : List (List Span) → List ℕ → ℕ → List Fragment
  | _, [], _ => []
  | [], _ :: _, _ => []
  | fragment_spans :: restSpans, mark :: restMarks, start_mark =>
      Fragment.make ((content.drop start_mark).take (mark - start_mark))
          (sortSpansByLength fragment_spans)
        :: fragsLoop content restSpans restMarks mark

/-- The mark set of `slice` after `self._slicing_marks.discard(0)`. -/
def sliceMarks (sl : FragmentSlicer) : List ℕ :=
  sl.slicing_marks.filter (fun m => decide (m ≠ 0))

/-- The local `slicing_marks = sorted(self._slicing_marks)` of `slice`;
Python's `sorted` over the mark set is `List.insertionSort (· ≤ ·)` of
the duplicate-free mark list. -/
def sortedMarks (sl : FragmentSlicer) : List ℕ :=
  List.insertionSort (· ≤ ·) (sliceMarks sl)

/-- The seed `self._start_to_spans[0] - self._end_to_spans[0]` of the
active-span list in `slice`. -/
def sliceSeed (sl : FragmentSlicer) : List Span :=
  setDiff (sl.start_to_spans 0) (sl.end_to_spans 0)

/-- The local `spans` list of `slice`: the seed followed by one
active-span set per sorted mark. -/
def spanSets (sl : FragmentSlicer) : List (List Span) :=
  sliceSeed sl :: activeLoop sl (sliceSeed sl) (sortedMarks sl)

/-- The marks used for splitting after
`if slicing_marks and slicing_marks[-1] < len(content): append(len(content))`. -/
def finalMarks (sl : FragmentSlicer) (len : ℕ) : List ℕ :=
  if (sortedMarks sl).getLastD 0 < len then sortedMarks sl ++ [len] else sortedMarks sl

/-- `_FragmentSlicer.slice` (its locals are the named definitions
above). -/
def slice (sl : FragmentSlicer) (file : File) : List Fragment :=
  if sliceMarks sl = [] then [Fragment.make file.text []]
  else fragsLoop file.text (spanSets sl) (finalMarks sl file.text.length) 0

/-- `fragmentize`: feed every span to a fresh slicer, then slice. -/
def fragmentize (file : File) (spans : List Span) : List Fragment :=
  slice (spans.foldl add_span FragmentSlicer.init) file

/-- Character count of a fragment: total length of its content lines. -/
def fragmentChars (f : Fragment) : ℕ := (f.content.map List.length).sum

/-- The text of a fragment list in order: concatenation of every
fragment's content lines. -/
def fragmentsText (fs : List Fragment) : List Char :=
  (fs.map (fun f => f.content.flatten)).flatten

/-! ### Basic lemmas about the modelling layer -/

set_option maxHeartbeats 2000000 in
theorem flatten_splitlinesAux (acc l : List Char) :
    (splitlinesAux acc l).flatten = acc.reverse ++ l := by
  induction acc, l using splitlinesAux.induct with
  | case1 =>
      simp [splitlinesAux]
  | case2 acc h =>
      simp [splitlinesAux, h]
  | case3 acc rest ih =>
      rw [splitlinesAux]
      simp [ih]
  | case4 acc c rest hne hbrk ih =>
      rw [splitlinesAux.eq_3 acc c rest hne]
      simp [hbrk, ih]
  | case5 acc c rest hne hbrk ih =>
      rw [splitlinesAux.eq_3 acc c rest hne]
      simp [hbrk, ih]

theorem flatten_splitlines (l : List Char) : (splitlines l).flatten = l := by
  simpa using flatten_splitlinesAux [] l

theorem mem_setAdd [DecidableEq α] {xs : List α} {x y : α} :
    y ∈ setAdd xs x ↔ y ∈ xs ∨ y = x := by
  unfold setAdd
  split <;> rename_i h
  · simp
    intro hy
    rw [hy]
    exact h
  · simp

theorem nodup_setAdd [DecidableEq α] {xs : List α} (h : xs.Nodup) (x : α) :
    (setAdd xs x).Nodup := by
  unfold setAdd
  split <;> rename_i hx
  · exact h
  · simpa [List.nodup_append, h] using hx

theorem mem_setUnion [DecidableEq α] {xs ys : List α} {y : α} :
    y ∈ setUnion xs ys ↔ y ∈ xs ∨ y ∈ ys := by
  unfold setUnion
  by_cases h : y ∈ xs <;> simp [h]

theorem mem_setDiff [DecidableEq α] {xs ys : List α} {y : α} :
    y ∈ setDiff xs ys ↔ y ∈ xs ∧ y ∉ ys := by
  unfold setDiff
  simp

theorem mem_sortSpansByLength {l : List Span} {s : Span} :
    s ∈ sortSpansByLength l ↔ s ∈ l :=
  (List.perm_insertionSort spanOrder l).mem_iff

/-! ### The state of a fed `_FragmentSlicer` -/

theorem mem_add_span_start {sl : FragmentSlicer} {a : Span} {k : ℕ} {s : Span} :
    s ∈ (add_span sl a).start_to_spans k ↔
      s ∈ sl.start_to_spans k ∨ (s = a ∧ a.start = k) := by
  show s ∈ (if k = a.start then _ else _) ↔ _
  split <;> rename_i h
  · subst h
    rw [mem_setAdd]
    tauto
  · constructor
    · tauto
    · rintro (hs | ⟨_, hk⟩)
      · exact hs
      · exact absurd hk.symm h

theorem mem_add_span_end {sl : FragmentSlicer} {a : Span} {k : ℕ} {s : Span} :
    s ∈ (add_span sl a).end_to_spans k ↔
      s ∈ sl.end_to_spans k ∨ (s = a ∧ a.«end» = k) := by
  show s ∈ (if k = a.«end» then _ else _) ↔ _
  split <;> rename_i h
  · subst h
    rw [mem_setAdd]
    tauto
  · constructor
    · tauto
    · rintro (hs | ⟨_, hk⟩)
      · exact hs
      · exact absurd hk.symm h

theorem mem_add_span_marks {sl : FragmentSlicer} {a : Span} {m : ℕ} :
    m ∈ (add_span sl a).slicing_marks ↔
      m ∈ sl.slicing_marks ∨ m = a.start ∨ m = a.«end» := by
  show m ∈ setAdd (setAdd _ _) _ ↔ _
  rw [mem_setAdd, mem_setAdd]
  tauto

theorem mem_foldl_start {spans : List Span} :
    ∀ (sl : FragmentSlicer) (k : ℕ) (s : Span),
      s ∈ (spans.foldl add_span sl).start_to_spans k ↔
        s ∈ sl.start_to_spans k ∨ (s ∈ spans ∧ s.start = k) := by
  induction spans with
  | nil => simp
  | cons a rest ih =>
      intro sl k s
      rw [List.foldl_cons, ih, mem_add_span_start]
      constructor
      · rintro ((h | ⟨rfl, h⟩) | ⟨h1, h2⟩) <;> tauto
      · rintro (h | ⟨h1, h2⟩)
        · tauto
        · rcases List.mem_cons.mp h1 with rfl | h1
          · exact Or.inl (Or.inr ⟨rfl, h2⟩)
          · tauto

theorem mem_foldl_end {spans : List Span} :
    ∀ (sl : FragmentSlicer) (k : ℕ) (s : Span),
      s ∈ (spans.foldl add_span sl).end_to_spans k ↔
        s ∈ sl.end_to_spans k ∨ (s ∈ spans ∧ s.«end» = k) := by
  induction spans with
  | nil => simp
  | cons a rest ih =>
      intro sl k s
      rw [List.foldl_cons, ih, mem_add_span_end]
      constructor
      · rintro ((h | ⟨rfl, h⟩) | ⟨h1, h2⟩) <;> tauto
      · rintro (h | ⟨h1, h2⟩)
        · tauto
        · rcases List.mem_cons.mp h1 with rfl | h1
          · exact Or.inl (Or.inr ⟨rfl, h2⟩)
          · tauto

theorem mem_foldl_marks {spans : List Span} :
    ∀ (sl : FragmentSlicer) (m : ℕ),
      m ∈ (spans.foldl add_span sl).slicing_marks ↔
        m ∈ sl.slicing_marks ∨ ∃ s ∈ spans, m = s.start ∨ m = s.«end» := by
  induction spans with
  | nil => simp
  | cons a rest ih =>
      intro sl m
      rw [List.foldl_cons, ih, mem_add_span_marks]
      simp only [List.mem_cons]
      constructor
      · rintro ((h | h | h) | ⟨s, hs, h⟩)
        · exact Or.inl h
        · exact Or.inr ⟨a, Or.inl rfl, Or.inl h⟩
        · exact Or.inr ⟨a, Or.inl rfl, Or.inr h⟩
        · exact Or.inr ⟨s, Or.inr hs, h⟩
      · rintro (h | ⟨s, rfl | hs, h⟩)
        · exact Or.inl (Or.inl h)
        · rcases h with h | h
          · exact Or.inl (Or.inr (Or.inl h))
          · exact Or.inl (Or.inr (Or.inr h))
        · exact Or.inr ⟨s, hs, h⟩

theorem nodup_foldl_marks {spans : List Span} :
    ∀ (sl : FragmentSlicer), sl.slicing_marks.Nodup →
      (spans.foldl add_span sl).slicing_marks.Nodup := by
  induction spans with
  | nil => exact fun _ h => h
  | cons a rest ih =>
      intro sl h
      exact ih _ (nodup_setAdd (nodup_setAdd h _) _)

theorem mkSlicer_start {spans : List Span} {k : ℕ} {s : Span} :
    s ∈ (spans.foldl add_span FragmentSlicer.init).start_to_spans k ↔
      s ∈ spans ∧ s.start = k := by
  rw [mem_foldl_start]
  simp [FragmentSlicer.init]

theorem mkSlicer_end {spans : List Span} {k : ℕ} {s : Span} :
    s ∈ (spans.foldl add_span FragmentSlicer.init).end_to_spans k ↔
      s ∈ spans ∧ s.«end» = k := by
  rw [mem_foldl_end]
  simp [FragmentSlicer.init]

theorem mkSlicer_marks {spans : List Span} {m : ℕ} :
    m ∈ (spans.foldl add_span FragmentSlicer.init).slicing_marks ↔
      ∃ s ∈ spans, m = s.start ∨ m = s.«end» := by
  rw [mem_foldl_marks]
  simp [FragmentSlicer.init]

theorem mkSlicer_marks_nodup {spans : List Span} :
    (spans.foldl add_span FragmentSlicer.init).slicing_marks.Nodup :=
  nodup_foldl_marks _ (by simp [FragmentSlicer.init])

/-! ### The partition law: fragments concatenate back to the file text -/

theorem getLastD_mem_or {l : List ℕ} {d : ℕ} :
    l.getLastD d ∈ l ∨ l.getLastD d = d := by
  induction l generalizing d with
  | nil => simp
  | cons a t ih =>
      rw [List.getLastD_cons]
      rcases @ih a with h | h
      · exact Or.inl (List.mem_cons_of_mem _ h)
      · exact Or.inl (by rw [h]; exact List.mem_cons_self a t)

theorem le_getLastD {l : List ℕ} {d : ℕ} (h : ∀ x ∈ l, d ≤ x) : d ≤ l.getLastD d := by
  rcases @getLastD_mem_or l d with hm | hm
  · exact h _ hm
  · rw [hm]

theorem fragmentsText_cons (f : Fragment) (fs : List Fragment) :
    fragmentsText (f :: fs) = f.content.flatten ++ fragmentsText fs := by
  simp [fragmentsText]

theorem fragmentsText_fragsLoop (content : List Char) :
    ∀ (marks : List ℕ) (sets : List (List Span)) (p : ℕ),
      marks.Sorted (· ≤ ·) → (∀ m ∈ marks, p ≤ m) →
      marks.length ≤ sets.length →
      fragmentsText (fragsLoop content sets marks p) =
        (content.drop p).take (marks.getLastD p - p) := by
  intro marks
  induction marks with
  | nil =>
      intro sets p _ _ _
      cases sets <;> simp [fragsLoop, fragmentsText]
  | cons m ms ih =>
      intro sets p hsort hge hlen
      match sets with
      | [] => simp at hlen
      | A :: As =>
          have hpm : p ≤ m := hge m (List.mem_cons_self m ms)
          have hms : ∀ x ∈ ms, m ≤ x := fun x hx => (List.sorted_cons.mp hsort).1 x hx
          have hmL : m ≤ ms.getLastD m := le_getLastD hms
          have hlen2 : ms.length ≤ As.length := by
            simp only [List.length_cons] at hlen
            omega
          have key : (content.drop p).take (ms.getLastD m - p) =
              (content.drop p).take (m - p) ++ (content.drop m).take (ms.getLastD m - m) := by
            have h1 : ms.getLastD m - p = (m - p) + (ms.getLastD m - m) := by omega
            have h2 : (content.drop p).drop (m - p) = content.drop m := by
              rw [List.drop_drop]
              congr 1
              omega
            rw [h1, List.take_add, h2]
          simp only [fragsLoop]
          rw [fragmentsText_cons, List.getLastD_cons,
            ih As m (List.sorted_cons.mp hsort).2 hms hlen2, key]
          congr 1
          exact flatten_splitlines _

theorem activeLoop_length (sl : FragmentSlicer) :
    ∀ (marks : List ℕ) (acc : List Span), (activeLoop sl acc marks).length = marks.length := by
  intro marks
  induction marks with
  | nil => intro acc; rfl
  | cons m ms ih => intro acc; simp [activeLoop, ih]

theorem sorted_le_getLastD {l : List ℕ} (hs : l.Sorted (· ≤ ·)) {x : ℕ} (hx : x ∈ l)
    (d : ℕ) : x ≤ l.getLastD d := by
  induction l generalizing d with
  | nil => cases hx
  | cons a t ih =>
      rw [List.getLastD_cons]
      rcases List.mem_cons.mp hx with rfl | hx2
      · exact le_getLastD fun y hy => (List.sorted_cons.mp hs).1 y hy
      · exact ih (List.sorted_cons.mp hs).2 hx2 a

/-- The partition law holds for every slicer state, well formed or not:
the fragments produced by `slice` concatenate back to the file text. -/
theorem sortedMarks_sorted_le (sl : FragmentSlicer) :
    (sortedMarks sl).Sorted (· ≤ ·) :=
  List.sorted_insertionSort _ _

theorem spanSets_length (sl : FragmentSlicer) :
    (spanSets sl).length = (sortedMarks sl).length + 1 := by
  simp [spanSets, activeLoop_length]

theorem finalMarks_length_le (sl : FragmentSlicer) (len : ℕ) :
    (finalMarks sl len).length ≤ (sortedMarks sl).length + 1 := by
  unfold finalMarks
  split <;> simp

theorem finalMarks_sorted_le (sl : FragmentSlicer) (len : ℕ) :
    (finalMarks sl len).Sorted (· ≤ ·) := by
  have hMsorted := sortedMarks_sorted_le sl
  unfold finalMarks
  split <;> rename_i hlt
  · rw [List.Sorted, List.pairwise_append]
    refine ⟨hMsorted, by simp, ?_⟩
    intro x hx y hy
    rw [List.mem_singleton.mp hy]
    exact le_of_lt (lt_of_le_of_lt (sorted_le_getLastD hMsorted hx 0) hlt)
  · exact hMsorted

theorem finalMarks_getLastD (sl : FragmentSlicer) (len : ℕ) :
    len ≤ (finalMarks sl len).getLastD 0 := by
  unfold finalMarks
  split <;> rename_i hlt
  · simp
  · exact Nat.le_of_not_lt hlt

theorem fragmentsText_slice (sl : FragmentSlicer) (file : File) :
    fragmentsText (slice sl file) = file.text := by
  rw [slice]
  split
  · simp [fragmentsText, Fragment.make, flatten_splitlines]
  · rw [fragmentsText_fragsLoop file.text (finalMarks sl file.text.length) _ 0
      (finalMarks_sorted_le sl _)
      (fun m _ => Nat.zero_le m)
      (le_trans (finalMarks_length_le sl _) (le_of_eq (spanSets_length sl).symm))]
    simp only [List.drop_zero, Nat.sub_zero]
    exact List.take_of_length_le (finalMarks_getLastD sl _)

/-- The partition law for `fragmentize`: for every file and every span
list (no well-formedness assumed), the produced fragments concatenate
back to the file's full text. -/
theorem fragmentsText_fragmentize (file : File) (spans : List Span) :
    fragmentsText (fragmentize file spans) = file.text :=
  fragmentsText_slice _ file

/-! ### Offset ranges of fragments (derived via prefix sums) -/

/-- Sum of the first `i` entries of a list of naturals. -/
def prefixSum (ls : List ℕ) (i : ℕ) : ℕ := (ls.take i).sum

/-- Offset at which the `i`-th fragment of `fs` begins: total character
count of the fragments before it.  The `i`-th fragment occupies the
half-open offset range `[fragStarts fs i, fragStarts fs (i+1))`. -/
def fragStarts (fs : List Fragment) (i : ℕ) : ℕ := prefixSum (fs.map fragmentChars) i

theorem prefixSum_zero (ls : List ℕ) : prefixSum ls 0 = 0 := rfl

theorem prefixSum_succ (ls : List ℕ) (i : ℕ) (h : i < ls.length) :
    prefixSum ls (i + 1) = prefixSum ls i + ls[i] :=
  List.sum_take_succ ls i h

theorem prefixSum_mono (ls : List ℕ) {i j : ℕ} (h : i ≤ j) :
    prefixSum ls i ≤ prefixSum ls j :=
  ((List.take_prefix_take_left ls h).sublist).sum_le_sum fun a _ => Nat.zero_le a

theorem prefixSum_length (ls : List ℕ) : prefixSum ls ls.length = ls.sum := by
  simp [prefixSum]

theorem prefixSum_exists (ls : List ℕ) (o : ℕ) (h : o < ls.sum) :
    ∃ i, i < ls.length ∧ prefixSum ls i ≤ o ∧ o < prefixSum ls (i + 1) := by
  induction ls generalizing o with
  | nil => simp at h
  | cons a t ih =>
      by_cases ha : o < a
      · refine ⟨0, by simp, by simp [prefixSum], ?_⟩
        simpa [prefixSum] using ha
      · have h2 : o - a < t.sum := by
          simp only [List.sum_cons] at h
          omega
        obtain ⟨j, hj1, hj2, hj3⟩ := ih (o - a) h2
        have e1 : prefixSum (a :: t) (j + 1) = a + prefixSum t j := by
          simp [prefixSum, List.take_succ_cons]
        have e2 : prefixSum (a :: t) (j + 1 + 1) = a + prefixSum t (j + 1) := by
          simp [prefixSum, List.take_succ_cons]
        exact ⟨j + 1, by simpa using hj1, by omega, by omega⟩

theorem prefixSum_unique (ls : List ℕ) (o : ℕ) {i j : ℕ}
    (hi : prefixSum ls i ≤ o ∧ o < prefixSum ls (i + 1))
    (hj : prefixSum ls j ≤ o ∧ o < prefixSum ls (j + 1)) : i = j := by
  by_contra hne
  rcases Nat.lt_or_ge i j with h | h
  · have := prefixSum_mono ls (show i + 1 ≤ j by omega)
    omega
  · have hij : j < i := Nat.lt_of_le_of_ne h fun e => hne e.symm
    have := prefixSum_mono ls (show j + 1 ≤ i by omega)
    omega

theorem sum_fragmentChars (fs : List Fragment) :
    (fs.map fragmentChars).sum = (fragmentsText fs).length := by
  induction fs with
  | nil => rfl
  | cons f t ih =>
      rw [fragmentsText_cons]
      simp only [List.map_cons, List.sum_cons, List.length_append, ih]
      congr 1
      simp [fragmentChars]

/-! ### Active-span correctness machinery -/

/-- After one `activeStep` at mark `m0`, the active set is exactly the
spans covering the offset `m0`, provided the previous active set was
exact at `p`, no span boundary lies strictly between `p` and `m0`, and
the slicer state agrees with the fed span list. -/
theorem mem_activeStep (spans : List Span) (st : FragmentSlicer)
    (hst1 : ∀ (k : ℕ) (s : Span), s ∈ st.start_to_spans k ↔ s ∈ spans ∧ s.start = k)
    (hst2 : ∀ (k : ℕ) (s : Span), s ∈ st.end_to_spans k ↔ s ∈ spans ∧ s.«end» = k)
    (hwf : ∀ s ∈ spans, s.start ≤ s.«end»)
    (A : List Span) (p m0 : ℕ) (hpm : p < m0)
    (hA : ∀ s, s ∈ A ↔ s ∈ spans ∧ s.start ≤ p ∧ p < s.«end»)
    (hcl : ∀ s ∈ spans, (s.start ≤ p ∨ m0 ≤ s.start) ∧ (s.«end» ≤ p ∨ m0 ≤ s.«end»)) :
    ∀ s, s ∈ activeStep st A m0 ↔ s ∈ spans ∧ s.start ≤ m0 ∧ m0 < s.«end» := by
  intro s
  unfold activeStep
  rw [mem_setDiff, mem_setUnion, hA, hst1, hst2]
  constructor
  · rintro ⟨⟨hsp, hs, he⟩ | ⟨hsp, hst⟩, hne⟩
    · refine ⟨hsp, le_trans hs (le_of_lt hpm), ?_⟩
      rcases (hcl s hsp).2 with h | h
      · omega
      · have : s.«end» ≠ m0 := fun e => hne ⟨hsp, e⟩
        omega
    · refine ⟨hsp, le_of_eq hst, ?_⟩
      have h1 : s.start ≤ s.«end» := hwf s hsp
      have : s.«end» ≠ m0 := fun e => hne ⟨hsp, e⟩
      omega
  · rintro ⟨hsp, hs, he⟩
    refine ⟨?_, fun h => by omega⟩
    by_cases hstart : s.start = m0
    · exact Or.inr ⟨hsp, hstart⟩
    · left
      refine ⟨hsp, ?_, ?_⟩
      · rcases (hcl s hsp).1 with h | h
        · exact h
        · omega
      · omega

/-- At every left segment boundary `b`, the active-set snapshot of the
slicing loop is exactly the spans covering `b`. -/
theorem active_edge (spans : List Span) (st : FragmentSlicer)
    (hst1 : ∀ (k : ℕ) (s : Span), s ∈ st.start_to_spans k ↔ s ∈ spans ∧ s.start = k)
    (hst2 : ∀ (k : ℕ) (s : Span), s ∈ st.end_to_spans k ↔ s ∈ spans ∧ s.«end» = k)
    (hwf : ∀ s ∈ spans, s.start ≤ s.«end») :
    ∀ (M : List ℕ) (A : List Span) (p : ℕ),
      (∀ s, s ∈ A ↔ s ∈ spans ∧ s.start ≤ p ∧ p < s.«end») →
      (p :: M).Sorted (· < ·) →
      (∀ s ∈ spans, (s.start ≤ p ∨ s.start ∈ M) ∧ (s.«end» ≤ p ∨ s.«end» ∈ M)) →
      ∀ (j b : ℕ) (Aj : List Span),
        (p :: M)[j]? = some b → (A :: activeLoop st A M)[j]? = some Aj →
        ∀ s, s ∈ Aj ↔ s ∈ spans ∧ s.start ≤ b ∧ b < s.«end» := by
  intro M
  induction M with
  | nil =>
      intro A p hA _ _ j b Aj hb hAj
      match j, hb, hAj with
      | 0, hb, hAj =>
          rw [List.getElem?_cons_zero, Option.some.injEq] at hb hAj
          subst hb
          subst hAj
          exact hA
  | cons m0 ms ih =>
      intro A p hA hsort hcl j b Aj hb hAj
      have hpm : p < m0 := (List.sorted_cons.mp hsort).1 m0 (List.mem_cons_self m0 ms)
      have hm0le : ∀ x ∈ m0 :: ms, m0 ≤ x := by
        intro x hx
        rcases List.mem_cons.mp hx with rfl | hx2
        · exact le_refl x
        · exact le_of_lt ((List.sorted_cons.mp (List.sorted_cons.mp hsort).2).1 x hx2)
      match j, hb, hAj with
      | 0, hb, hAj =>
          rw [List.getElem?_cons_zero, Option.some.injEq] at hb hAj
          subst hb
          subst hAj
          exact hA
      | j + 1, hb, hAj =>
          rw [List.getElem?_cons_succ] at hb hAj
          have hA2 : ∀ s, s ∈ activeStep st A m0 ↔
              s ∈ spans ∧ s.start ≤ m0 ∧ m0 < s.«end» := by
            refine mem_activeStep spans st hst1 hst2 hwf A p m0 hpm hA ?_
            intro s hs
            refine ⟨?_, ?_⟩
            · rcases (hcl s hs).1 with h | h
              · exact Or.inl h
              · exact Or.inr (hm0le _ h)
            · rcases (hcl s hs).2 with h | h
              · exact Or.inl h
              · exact Or.inr (hm0le _ h)
          have hsort2 : (m0 :: ms).Sorted (· < ·) := (List.sorted_cons.mp hsort).2
          have hcl2 : ∀ s ∈ spans,
              (s.start ≤ m0 ∨ s.start ∈ ms) ∧ (s.«end» ≤ m0 ∨ s.«end» ∈ ms) := by
            intro s hs
            refine ⟨?_, ?_⟩
            · rcases (hcl s hs).1 with h | h
              · exact Or.inl (le_trans h (le_of_lt hpm))
              · rcases List.mem_cons.mp h with h2 | h2
                · exact Or.inl (le_of_eq h2)
                · exact Or.inr h2
            · rcases (hcl s hs).2 with h | h
              · exact Or.inl (le_trans h (le_of_lt hpm))
              · rcases List.mem_cons.mp h with h2 | h2
                · exact Or.inl (le_of_eq h2)
                · exact Or.inr h2
          exact ih (activeStep st A m0) m0 hA2 hsort2 hcl2 j b Aj hb hAj

/-- Inside the segment `[b, m)` between two consecutive slicing marks,
the active-set snapshot is exactly the spans covering any offset `o`
of the segment. -/
theorem active_interior (spans : List Span) (st : FragmentSlicer)
    (hst1 : ∀ (k : ℕ) (s : Span), s ∈ st.start_to_spans k ↔ s ∈ spans ∧ s.start = k)
    (hst2 : ∀ (k : ℕ) (s : Span), s ∈ st.end_to_spans k ↔ s ∈ spans ∧ s.«end» = k)
    (hwf : ∀ s ∈ spans, s.start ≤ s.«end») :
    ∀ (M : List ℕ) (A : List Span) (p : ℕ),
      (∀ s, s ∈ A ↔ s ∈ spans ∧ s.start ≤ p ∧ p < s.«end») →
      (p :: M).Sorted (· < ·) →
      (∀ s ∈ spans, (s.start ≤ p ∨ s.start ∈ M) ∧ (s.«end» ≤ p ∨ s.«end» ∈ M)) →
      ∀ (j b m : ℕ) (Aj : List Span) (o : ℕ),
        (p :: M)[j]? = some b → M[j]? = some m →
        (A :: activeLoop st A M)[j]? = some Aj →
        b ≤ o → o < m →
        ∀ s, s ∈ Aj ↔ s ∈ spans ∧ s.start ≤ o ∧ o < s.«end» := by
  intro M
  induction M with
  | nil =>
      intro A p _ _ _ j b m Aj o _ hm
      simp at hm
  | cons m0 ms ih =>
      intro A p hA hsort hcl j b m Aj o hb hm hAj ho1 ho2
      have hpm : p < m0 := (List.sorted_cons.mp hsort).1 m0 (List.mem_cons_self m0 ms)
      have hm0le : ∀ x ∈ m0 :: ms, m0 ≤ x := by
        intro x hx
        rcases List.mem_cons.mp hx with rfl | hx2
        · exact le_refl x
        · exact le_of_lt ((List.sorted_cons.mp (List.sorted_cons.mp hsort).2).1 x hx2)
      match j, hb, hm, hAj with
      | 0, hb, hm, hAj =>
          rw [List.getElem?_cons_zero, Option.some.injEq] at hb hm hAj
          subst hb
          subst hm
          subst hAj
          intro s
          rw [hA]
          constructor
          · rintro ⟨hsp, hs, he⟩
            refine ⟨hsp, le_trans hs ho1, ?_⟩
            rcases (hcl s hsp).2 with h | h
            · omega
            · have := hm0le _ h
              omega
          · rintro ⟨hsp, hs, he⟩
            refine ⟨hsp, ?_, ?_⟩
            · rcases (hcl s hsp).1 with h | h
              · exact h
              · have := hm0le _ h
                omega
            · omega
      | j + 1, hb, hm, hAj =>
          rw [List.getElem?_cons_succ] at hb hm hAj
          have hA2 : ∀ s, s ∈ activeStep st A m0 ↔
              s ∈ spans ∧ s.start ≤ m0 ∧ m0 < s.«end» := by
            refine mem_activeStep spans st hst1 hst2 hwf A p m0 hpm hA ?_
            intro s hs
            refine ⟨?_, ?_⟩
            · rcases (hcl s hs).1 with h | h
              · exact Or.inl h
              · exact Or.inr (hm0le _ h)
            · rcases (hcl s hs).2 with h | h
              · exact Or.inl h
              · exact Or.inr (hm0le _ h)
          have hsort2 : (m0 :: ms).Sorted (· < ·) := (List.sorted_cons.mp hsort).2
          have hcl2 : ∀ s ∈ spans,
              (s.start ≤ m0 ∨ s.start ∈ ms) ∧ (s.«end» ≤ m0 ∨ s.«end» ∈ ms) := by
            intro s hs
            refine ⟨?_, ?_⟩
            · rcases (hcl s hs).1 with h | h
              · exact Or.inl (le_trans h (le_of_lt hpm))
              · rcases List.mem_cons.mp h with h2 | h2
                · exact Or.inl (le_of_eq h2)
                · exact Or.inr h2
            · rcases (hcl s hs).2 with h | h
              · exact Or.inl (le_trans h (le_of_lt hpm))
              · rcases List.mem_cons.mp h with h2 | h2
                · exact Or.inl (le_of_eq h2)
                · exact Or.inr h2
          exact ih (activeStep st A m0) m0 hA2 hsort2 hcl2 j b m Aj o hb hm hAj ho1 ho2

/-! ### Shape of the fragment list produced by the slicing loop -/

theorem fragsLoop_length (content : List Char) :
    ∀ (bounds : List ℕ) (sets : List (List Span)) (p : ℕ),
      (fragsLoop content sets bounds p).length = min sets.length bounds.length := by
  intro bounds
  induction bounds with
  | nil =>
      intro sets p
      cases sets <;> simp [fragsLoop]
  | cons m ms ih =>
      intro sets p
      match sets with
      | [] => simp [fragsLoop]
      | A :: As =>
          simp only [fragsLoop, List.length_cons, ih As m]
          omega

theorem fragsLoop_getElem (content : List Char) :
    ∀ (bounds : List ℕ) (sets : List (List Span)) (p j : ℕ) (f : Fragment),
      (fragsLoop content sets bounds p)[j]? = some f →
      ∃ (Aj : List Span) (b m : ℕ),
        sets[j]? = some Aj ∧ bounds[j]? = some m ∧ (p :: bounds)[j]? = some b ∧
        f = Fragment.make ((content.drop b).take (m - b)) (sortSpansByLength Aj) := by
  intro bounds
  induction bounds with
  | nil =>
      intro sets p j f hf
      cases sets <;> simp [fragsLoop] at hf
  | cons m0 ms ih =>
      intro sets p j f hf
      match sets with
      | [] => simp [fragsLoop] at hf
      | A :: As =>
          simp only [fragsLoop] at hf
          match j, hf with
          | 0, hf =>
              rw [List.getElem?_cons_zero, Option.some.injEq] at hf
              exact ⟨A, p, m0, List.getElem?_cons_zero, List.getElem?_cons_zero,
                List.getElem?_cons_zero, hf.symm⟩
          | j + 1, hf =>
              rw [List.getElem?_cons_succ] at hf
              obtain ⟨Aj, b, m, h1, h2, h3, h4⟩ := ih As m0 j f hf
              exact ⟨Aj, b, m, by simpa using h1, by simpa using h2, by simpa using h3, h4⟩

theorem fragmentChars_make (c : List Char) (s : List Span) :
    fragmentChars (Fragment.make c s) = c.length := by
  show (List.map List.length (splitlines c)).sum = c.length
  rw [← List.length_flatten, flatten_splitlines]

theorem fragStarts_cons_succ (f : Fragment) (fs : List Fragment) (j : ℕ) :
    fragStarts (f :: fs) (j + 1) = fragmentChars f + fragStarts fs j := by
  simp [fragStarts, prefixSum, List.take_succ_cons]

/-- Relating fragment offsets to the slicing marks: the `j`-th
fragment of the slicing loop starts at boundary `(p :: bounds)[j]`
(shifted by the overall start `p`). -/
theorem fragStarts_fragsLoop (content : List Char) :
    ∀ (bounds : List ℕ) (sets : List (List Span)) (p j b : ℕ),
      bounds.Sorted (· ≤ ·) → (∀ m ∈ bounds, p ≤ m ∧ m ≤ content.length) →
      p ≤ content.length → bounds.length ≤ sets.length →
      (p :: bounds)[j]? = some b →
      fragStarts (fragsLoop content sets bounds p) j + p = b := by
  intro bounds
  induction bounds with
  | nil =>
      intro sets p j b _ _ _ _ hb
      match j, hb with
      | 0, hb =>
          rw [List.getElem?_cons_zero, Option.some.injEq] at hb
          subst hb
          simp [fragStarts, prefixSum]
  | cons m0 ms ih =>
      intro sets p j b hsort hbd hple hlen hb
      match sets with
      | [] => simp at hlen
      | A :: As =>
          match j, hb with
          | 0, hb =>
              rw [List.getElem?_cons_zero, Option.some.injEq] at hb
              subst hb
              simp [fragStarts, prefixSum]
          | j + 1, hb =>
              rw [List.getElem?_cons_succ] at hb
              have hpm : p ≤ m0 := (hbd m0 (List.mem_cons_self m0 ms)).1
              have hm0len : m0 ≤ content.length := (hbd m0 (List.mem_cons_self m0 ms)).2
              have hbd2 : ∀ m ∈ ms, m0 ≤ m ∧ m ≤ content.length := fun m hm =>
                ⟨(List.sorted_cons.mp hsort).1 m hm, (hbd m (List.mem_cons_of_mem m0 hm)).2⟩
              have hlen2 : ms.length ≤ As.length := by
                simp only [List.length_cons] at hlen
                omega
              have ihr := ih As m0 j b (List.sorted_cons.mp hsort).2 hbd2 hm0len hlen2 hb
              simp only [fragsLoop]
              rw [fragStarts_cons_succ, fragmentChars_make]
              have hlenfrag : ((content.drop p).take (m0 - p)).length = m0 - p := by
                rw [List.length_take, List.length_drop]
                omega
              omega

/-! ### Exactness of fragment span annotations (well-formed spans) -/

theorem getElem?_cons_getLastD (d : ℕ) (l : List ℕ) :
    (d :: l)[l.length]? = some (l.getLastD d) := by
  induction l generalizing d with
  | nil => rfl
  | cons a t ih =>
      rw [List.getLastD_cons]
      show (d :: a :: t)[t.length + 1]? = _
      rw [List.getElem?_cons_succ]
      exact ih a

theorem mem_sortedMarks {spans : List Span} {x : ℕ} :
    x ∈ sortedMarks (spans.foldl add_span FragmentSlicer.init) ↔
      (∃ s ∈ spans, x = s.start ∨ x = s.«end») ∧ x ≠ 0 := by
  rw [sortedMarks, (List.perm_insertionSort _ _).mem_iff, sliceMarks, List.mem_filter,
    mkSlicer_marks]
  simp

theorem nodup_sortedMarks {spans : List Span} :
    (sortedMarks (spans.foldl add_span FragmentSlicer.init)).Nodup :=
  ((List.perm_insertionSort _ _).nodup_iff).mpr (mkSlicer_marks_nodup.filter _)

theorem sorted_lt_sortedMarks {spans : List Span} :
    (sortedMarks (spans.foldl add_span FragmentSlicer.init)).Sorted (· < ·) :=
  List.Sorted.lt_of_le (sortedMarks_sorted_le _) nodup_sortedMarks

/-- Master lemma for the active-span law: every fragment produced by
`fragmentize` on well-formed spans carries only spans with
`start < end` drawn from the input, and for every offset of the
fragment's range, the carried spans are exactly those covering it. -/
theorem fragment_spans_exact (file : File) (spans : List Span)
    (hwf : ∀ s ∈ spans, s.start ≤ s.«end» ∧ s.«end» ≤ file.text.length) :
    ∀ (i : ℕ) (f : Fragment), (fragmentize file spans)[i]? = some f →
      (∀ s ∈ f.spans, s ∈ spans ∧ s.start < s.«end») ∧
      ∀ (o : ℕ), o < file.text.length →
        fragStarts (fragmentize file spans) i ≤ o →
        o < fragStarts (fragmentize file spans) (i + 1) →
        ∀ s, s ∈ f.spans ↔ s ∈ spans ∧ s.start ≤ o ∧ o < s.«end» := by
  intro i f hf
  have hwf1 : ∀ s ∈ spans, s.start ≤ s.«end» := fun s hs => (hwf s hs).1
  by_cases hm : sliceMarks (spans.foldl add_span FragmentSlicer.init) = []
  · have hfs : fragmentize file spans = [Fragment.make file.text []] := by
      rw [fragmentize, slice]
      exact if_pos hm
    rw [hfs] at hf
    have hnone : ∀ s, ¬(s ∈ spans ∧ s.start ≤ s.«end» ∧ 0 < s.«end») := by
      rintro s ⟨hsp, _, hpos⟩
      have hmem : s.«end» ∈ sliceMarks (spans.foldl add_span FragmentSlicer.init) := by
        rw [sliceMarks, List.mem_filter]
        refine ⟨mkSlicer_marks.mpr ⟨s, hsp, Or.inr rfl⟩, ?_⟩
        simpa using Nat.pos_iff_ne_zero.mp hpos
      rw [hm] at hmem
      simp at hmem
    match i, hf with
    | 0, hf =>
        rw [List.getElem?_cons_zero, Option.some.injEq] at hf
        subst hf
        constructor
        · intro s hs
          simp [Fragment.make] at hs
        · intro o _ _ _ s
          constructor
          · intro hs
            simp [Fragment.make] at hs
          · rintro ⟨hsp, hs1, hs2⟩
            exact absurd ⟨hsp, hwf1 s hsp, by omega⟩ (hnone s)
  · have hfs : fragmentize file spans =
        fragsLoop file.text (spanSets (spans.foldl add_span FragmentSlicer.init))
          (finalMarks (spans.foldl add_span FragmentSlicer.init) file.text.length) 0 := by
      rw [fragmentize, slice]
      exact if_neg hm
    have hst1 : ∀ (k : ℕ) (s : Span),
        s ∈ (spans.foldl add_span FragmentSlicer.init).start_to_spans k ↔
          s ∈ spans ∧ s.start = k := fun k s => mkSlicer_start
    have hst2 : ∀ (k : ℕ) (s : Span),
        s ∈ (spans.foldl add_span FragmentSlicer.init).end_to_spans k ↔
          s ∈ spans ∧ s.«end» = k := fun k s => mkSlicer_end
    have hA0 : ∀ s, s ∈ sliceSeed (spans.foldl add_span FragmentSlicer.init) ↔
        s ∈ spans ∧ s.start ≤ 0 ∧ 0 < s.«end» := by
      intro s
      rw [sliceSeed, mem_setDiff, hst1, hst2]
      constructor
      · rintro ⟨⟨hsp, hs⟩, hne⟩
        have : s.«end» ≠ 0 := fun e => hne ⟨hsp, e⟩
        exact ⟨hsp, by omega, by omega⟩
      · rintro ⟨hsp, hs1, hs2⟩
        exact ⟨⟨hsp, by omega⟩, fun h => by omega⟩
    have hsort0 : (0 :: sortedMarks (spans.foldl add_span FragmentSlicer.init)).Sorted
        (· < ·) := by
      rw [List.sorted_cons]
      refine ⟨fun b hb => ?_, sorted_lt_sortedMarks⟩
      have := (mem_sortedMarks.mp hb).2
      omega
    have hcl0 : ∀ s ∈ spans,
        (s.start ≤ 0 ∨ s.start ∈ sortedMarks (spans.foldl add_span FragmentSlicer.init)) ∧
        (s.«end» ≤ 0 ∨ s.«end» ∈ sortedMarks (spans.foldl add_span FragmentSlicer.init)) := by
      intro s hs
      constructor
      · by_cases h0 : s.start = 0
        · exact Or.inl (le_of_eq h0)
        · exact Or.inr (mem_sortedMarks.mpr ⟨⟨s, hs, Or.inl rfl⟩, h0⟩)
      · by_cases h0 : s.«end» = 0
        · exact Or.inl (le_of_eq h0)
        · exact Or.inr (mem_sortedMarks.mpr ⟨⟨s, hs, Or.inr rfl⟩, h0⟩)
    have hMlen : ∀ x ∈ sortedMarks (spans.foldl add_span FragmentSlicer.init),
        x ≤ file.text.length := by
      intro x hx
      obtain ⟨⟨s, hs, hor⟩, _⟩ := mem_sortedMarks.mp hx
      rcases hor with rfl | rfl
      · exact le_trans (hwf s hs).1 (hwf s hs).2
      · exact (hwf s hs).2
    rw [hfs] at hf
    obtain ⟨Aj, b, m, hAj, hmk, hb, hfeq⟩ := fragsLoop_getElem file.text _ _ _ _ _ hf
    have hfspans : ∀ s, s ∈ f.spans ↔ s ∈ Aj := by
      intro s
      rw [hfeq]
      exact mem_sortSpansByLength
    -- index bounds
    have hjlt : i < (finalMarks (spans.foldl add_span FragmentSlicer.init)
        file.text.length).length := (List.getElem?_eq_some.mp hmk).1
    have hjlt2 : i < (spanSets (spans.foldl add_span FragmentSlicer.init)).length :=
      (List.getElem?_eq_some.mp hAj).1
    have hjM : i ≤ (sortedMarks (spans.foldl add_span FragmentSlicer.init)).length := by
      rw [spanSets_length] at hjlt2
      omega
    -- the j-th boundary as seen in the unappended mark list
    have hb0 : (0 :: sortedMarks (spans.foldl add_span FragmentSlicer.init))[i]? =
        some b := by
      rcases Nat.lt_or_ge i ((sortedMarks (spans.foldl add_span FragmentSlicer.init)).length)
        with hi | hi
      · rw [← hb]
        unfold finalMarks
        split
        · show ((0 :: sortedMarks _)[i]?) = ((0 :: (sortedMarks _ ++ [file.text.length]))[i]?)
          rw [← List.cons_append, List.getElem?_append]
          exact (if_pos (by simpa using Nat.lt_succ_of_lt hi)).symm
        · rfl
      · -- i = length of sortedMarks
        have hieq : i = (sortedMarks (spans.foldl add_span FragmentSlicer.init)).length := by
          omega
        subst hieq
        rw [getElem?_cons_getLastD]
        -- identify b
        unfold finalMarks at hb
        by_cases hlt : (sortedMarks (spans.foldl add_span FragmentSlicer.init)).getLastD 0 <
            file.text.length
        · rw [if_pos hlt, ← List.cons_append, List.getElem?_append] at hb
          rw [if_pos (by simp)] at hb
          rw [getElem?_cons_getLastD] at hb
          exact hb
        · rw [if_neg hlt, getElem?_cons_getLastD] at hb
          exact hb
    refine ⟨?_, ?_⟩
    · -- every carried span comes from the input and has start < end
      intro s hs
      rw [hfspans] at hs
      have := active_edge spans _ hst1 hst2 hwf1 _ _ 0 hA0 hsort0 hcl0 i b Aj hb0
        (by rw [← hAj]; rfl) s
      obtain ⟨hsp, h1, h2⟩ := this.mp hs
      exact ⟨hsp, by omega⟩
    · intro o holen ho1 ho2 s
      -- identify the boundaries with the fragment offsets
      have hbeq : fragStarts (fragmentize file spans) i = b := by
        have := fragStarts_fragsLoop file.text
          (finalMarks (spans.foldl add_span FragmentSlicer.init) file.text.length)
          (spanSets (spans.foldl add_span FragmentSlicer.init)) 0 i b
          (finalMarks_sorted_le _ _)
          (fun x hx => ⟨Nat.zero_le x, ?_⟩)
          (Nat.zero_le _)
          (le_trans (finalMarks_length_le _ _) (le_of_eq (spanSets_length _).symm))
          hb
        · rw [hfs]
          omega
        · unfold finalMarks at hx
          rcases List.mem_append.mp (by
            by_cases hlt : (sortedMarks (spans.foldl add_span
                FragmentSlicer.init)).getLastD 0 < file.text.length
            · rw [if_pos hlt] at hx
              exact hx
            · rw [if_neg hlt] at hx
              exact List.mem_append.mpr (Or.inl hx)) with h | h
          · exact hMlen x h
          · rw [List.mem_singleton.mp h]
      have hmeq : fragStarts (fragmentize file spans) (i + 1) = m := by
        have := fragStarts_fragsLoop file.text
          (finalMarks (spans.foldl add_span FragmentSlicer.init) file.text.length)
          (spanSets (spans.foldl add_span FragmentSlicer.init)) 0 (i + 1) m
          (finalMarks_sorted_le _ _)
          (fun x hx => ⟨Nat.zero_le x, ?_⟩)
          (Nat.zero_le _)
          (le_trans (finalMarks_length_le _ _) (le_of_eq (spanSets_length _).symm))
          (by rw [List.getElem?_cons_succ]; exact hmk)
        · rw [hfs]
          omega
        · unfold finalMarks at hx
          rcases List.mem_append.mp (by
            by_cases hlt : (sortedMarks (spans.foldl add_span
                FragmentSlicer.init)).getLastD 0 < file.text.length
            · rw [if_pos hlt] at hx
              exact hx
            · rw [if_neg hlt] at hx
              exact List.mem_append.mpr (Or.inl hx)) with h | h
          · exact hMlen x h
          · rw [List.mem_singleton.mp h]
      rw [hfspans]
      rcases Nat.lt_or_ge i ((sortedMarks (spans.foldl add_span FragmentSlicer.init)).length)
        with hi | hi
      · -- interior segment: the i-th mark of the unappended list is m
        have hmk0 : (sortedMarks (spans.foldl add_span FragmentSlicer.init))[i]? =
            some m := by
          rw [← hmk]
          unfold finalMarks
          split
          · rw [List.getElem?_append]
            exact (if_pos hi).symm
          · rfl
        exact active_interior spans _ hst1 hst2 hwf1 _ _ 0 hA0 hsort0 hcl0 i b m Aj o
          hb0 hmk0 (by rw [← hAj]; rfl) (by omega) (by omega) s
      · -- the appended final segment, which no well-formed span reaches
        have hieq : i = (sortedMarks (spans.foldl add_span FragmentSlicer.init)).length := by
          omega
        have hbval : b = (sortedMarks (spans.foldl add_span FragmentSlicer.init)).getLastD
            0 := by
          rw [hieq] at hb0
          rw [getElem?_cons_getLastD, Option.some.injEq] at hb0
          exact hb0.symm
        have hedge := active_edge spans _ hst1 hst2 hwf1 _ _ 0 hA0 hsort0 hcl0 i b Aj hb0
          (by rw [← hAj]; rfl)
        constructor
        · intro hs
          exfalso
          obtain ⟨hsp, h1, h2⟩ := (hedge s).mp hs
          rcases (hcl0 s hsp).2 with h3 | h3
          · omega
          · have := sorted_le_getLastD (sortedMarks_sorted_le _) h3 0
            omega
        · rintro ⟨hsp, h1, h2⟩
          exfalso
          rcases (hcl0 s hsp).2 with h3 | h3
          · omega
          · have := sorted_le_getLastD (sortedMarks_sorted_le _) h3 0
            omega

/-! ### Claim theorems about the slicer -/

/-- **C1.** For every file and every set of spans over it with
`0 ≤ start ≤ end ≤ length of the file text`, the fragments returned by
`_FragmentSlicer.slice` are in left-to-right order, their offset
ranges (derived as prefix sums of fragment lengths) are contiguous and
non-overlapping and together cover `[0, len(file text))`, and
concatenating their contents in order reproduces the file's full text
exactly once. -/
theorem slice_partition_law (file : File) (spans : List Span)
    (hwf : ∀ s ∈ spans, s.start ≤ s.«end» ∧ s.«end» ≤ file.text.length) :
    fragmentsText (fragmentize file spans) = file.text ∧
    fragStarts (fragmentize file spans) 0 = 0 ∧
    fragStarts (fragmentize file spans) (fragmentize file spans).length =
      file.text.length ∧
    (∀ (i : ℕ) (f : Fragment), (fragmentize file spans)[i]? = some f →
      fragStarts (fragmentize file spans) (i + 1) =
        fragStarts (fragmentize file spans) i + fragmentChars f) ∧
    ∀ o : ℕ, o < file.text.length →
      ∃! i : ℕ, i < (fragmentize file spans).length ∧
        fragStarts (fragmentize file spans) i ≤ o ∧
        o < fragStarts (fragmentize file spans) (i + 1) := by
  have h1 := fragmentsText_fragmentize file spans
  have hsum : ((fragmentize file spans).map fragmentChars).sum = file.text.length := by
    rw [sum_fragmentChars, h1]
  refine ⟨h1, rfl, ?_, ?_, ?_⟩
  · show prefixSum ((fragmentize file spans).map fragmentChars) _ = _
    rw [show (fragmentize file spans).length =
        ((fragmentize file spans).map fragmentChars).length by simp]
    rw [prefixSum_length, hsum]
  · intro i f hf
    obtain ⟨hi, hival⟩ := List.getElem?_eq_some.mp hf
    have hlenmap : i < ((fragmentize file spans).map fragmentChars).length := by
      simpa using hi
    have hstep := prefixSum_succ ((fragmentize file spans).map fragmentChars) i hlenmap
    have hval : ((fragmentize file spans).map fragmentChars)[i] = fragmentChars f := by
      rw [List.getElem_map, hival]
    rw [hval] at hstep
    exact hstep
  · intro o ho
    obtain ⟨i, hi1, hi2, hi3⟩ := prefixSum_exists _ o (by rw [hsum]; exact ho)
    refine ⟨i, ⟨by simpa using hi1, hi2, hi3⟩, ?_⟩
    rintro j ⟨hj1, hj2, hj3⟩
    exact prefixSum_unique _ o ⟨hj2, hj3⟩ ⟨hi2, hi3⟩

/-- Witness for C1 at a concrete input. -/
theorem slice_partition_law_witness :
    (∀ s ∈ [Span.mk 0 1 2], s.start ≤ s.«end» ∧
      s.«end» ≤ ((⟨0, [], "ab".toList⟩ : File)).text.length) ∧
    fragmentsText (fragmentize ⟨0, [], "ab".toList⟩ [Span.mk 0 1 2]) =
      ((⟨0, [], "ab".toList⟩ : File)).text :=
  ⟨by decide,
   (slice_partition_law ⟨0, [], "ab".toList⟩ [Span.mk 0 1 2] (by decide)).1⟩

/-- **C2.** For every file, every set of well-formed spans over it and
every offset `o` in the file, the spans attached to the fragment whose
offset range contains `o` are exactly the input spans with
`start ≤ o < end`; in particular a zero-width span is never attached
to any fragment. -/
theorem slice_active_span_law (file : File) (spans : List Span)
    (hwf : ∀ s ∈ spans, s.start ≤ s.«end» ∧ s.«end» ≤ file.text.length) :
    (∀ (o : ℕ), o < file.text.length →
      ∀ (i : ℕ) (f : Fragment), (fragmentize file spans)[i]? = some f →
        fragStarts (fragmentize file spans) i ≤ o →
        o < fragStarts (fragmentize file spans) (i + 1) →
        ∀ s : Span, s ∈ f.spans ↔ s ∈ spans ∧ s.start ≤ o ∧ o < s.«end») ∧
    ∀ s ∈ spans, s.start = s.«end» →
      ∀ (i : ℕ) (f : Fragment), (fragmentize file spans)[i]? = some f → s ∉ f.spans := by
  constructor
  · intro o ho i f hf h1 h2 s
    exact (fragment_spans_exact file spans hwf i f hf).2 o ho h1 h2 s
  · intro s hs hzw i f hf hmem
    have := (fragment_spans_exact file spans hwf i f hf).1 s hmem
    omega

/-- Witness for C2 at a concrete input: the middle fragment of
`"abcd"` sliced with the span `[1,3)` carries exactly that span at
offset `2`. -/
theorem slice_active_span_law_witness :
    (∀ s ∈ [Span.mk 0 1 3], s.start ≤ s.«end» ∧
      s.«end» ≤ ((⟨0, [], "abcd".toList⟩ : File)).text.length) ∧
    ∀ s : Span, s ∈ (Fragment.mk [['b', 'c']] [⟨0, 1, 3⟩]).spans ↔
      s ∈ [Span.mk 0 1 3] ∧ s.start ≤ 2 ∧ 2 < s.«end» :=
  ⟨by decide,
   (slice_active_span_law ⟨0, [], "abcd".toList⟩ [⟨0, 1, 3⟩] (by decide)).1 2 (by decide)
     1 (Fragment.mk [['b', 'c']] [⟨0, 1, 3⟩]) (by decide) (by decide) (by decide)⟩

theorem perm_pair_eq {α : Type} {a b : α} :
    ∀ {l : List α}, l.Perm [a, b] → l = [a, b] ∨ l = [b, a] := by
  intro l h
  have hlen : l.length = 2 := by simpa using h.length_eq
  rcases l with _ | ⟨x, _ | ⟨y, _ | ⟨z, t⟩⟩⟩
  · simp at hlen
  · simp at hlen
  · have hx : x ∈ [a, b] := h.mem_iff.mp (List.mem_cons_self x [y])
    rcases List.mem_cons.mp hx with rfl | hx2
    · have h2 : [y].Perm [b] := h.cons_inv
      left
      rw [List.perm_singleton.mp h2]
    · have hx3 : x = b := by simpa using hx2
      have hswap : ([b, a] : List α).Perm [a, b] := List.Perm.swap a b []
      have h0 : ([b, y] : List α).Perm [a, b] := hx3 ▸ h
      have h3 : ([b, y] : List α).Perm [b, a] := h0.trans hswap.symm
      have h4 : [y].Perm [a] := h3.cons_inv
      right
      rw [hx3, List.perm_singleton.mp h4]
  · simp at hlen

/-- Counterexample to **C3**: the claimed `[S1,S2]` tie order on the
fragment `"ef"` is not determined by the program.  `slice` computes
each fragment's span list as `sorted(fragment_spans, ...)` where
`fragment_spans` is a Python *set*, whose iteration order is
unspecified (hash-dependent).  The active set of `"ef"` is `{S1,S2}`;
both of its enumerations are stably sorted to themselves (the two
spans have equal length key), so the two admissible enumerations yield
the two different outputs `[S1,S2]` and `[S2,S1]`. -/
theorem concrete_scenario_tie_counterexample :
    (spanSets ([Span.mk 0 2 6, Span.mk 0 4 8].foldl add_span FragmentSlicer.init))[2]? =
      some [⟨0, 2, 6⟩, ⟨0, 4, 8⟩] ∧
    ([(⟨0, 4, 8⟩ : Span), ⟨0, 2, 6⟩]).Perm [⟨0, 2, 6⟩, ⟨0, 4, 8⟩] ∧
    sortSpansByLength [⟨0, 2, 6⟩, ⟨0, 4, 8⟩] = [⟨0, 2, 6⟩, ⟨0, 4, 8⟩] ∧
    sortSpansByLength [⟨0, 4, 8⟩, ⟨0, 2, 6⟩] = [⟨0, 4, 8⟩, ⟨0, 2, 6⟩] ∧
    sortSpansByLength [(⟨0, 4, 8⟩ : Span), ⟨0, 2, 6⟩] ≠
      sortSpansByLength [⟨0, 2, 6⟩, ⟨0, 4, 8⟩] := by
  refine ⟨by decide, List.Perm.swap _ _ _, by decide, by decide, by decide⟩

/-- **C3 (amended).** Slicing `"abcdefghij"` with `S1=[2,6)` and
`S2=[4,8)` produces the cut marks `[2,4,6,8]` (sorted), exactly five
fragments with contents `"ab"`, `"cd"`, `"ef"`, `"gh"`, `"ij"` whose
active span *sets* are `{}`, `{S1}`, `{S1,S2}`, `{S2}`, `{}`, every
fragment's spans sorted by `(end-start)` descending, and the
concatenation reproduces `"abcdefghij"`; but the relative order of the
equal-length spans `S1`, `S2` on `"ef"` follows the unspecified
iteration order of a Python set: every enumeration of the active set
`{S1,S2}` is sorted to either `[S1,S2]` or `[S2,S1]`. -/
theorem concrete_scenario_slicing_amended :
    sortedMarks ([Span.mk 0 2 6, Span.mk 0 4 8].foldl add_span FragmentSlicer.init) =
      [2, 4, 6, 8] ∧
    (fragmentize ⟨0, [], "abcdefghij".toList⟩ [⟨0, 2, 6⟩, ⟨0, 4, 8⟩]).map
        (fun f => f.content.flatten) =
      ["ab".toList, "cd".toList, "ef".toList, "gh".toList, "ij".toList] ∧
    ((fragmentize ⟨0, [], "abcdefghij".toList⟩ [⟨0, 2, 6⟩, ⟨0, 4, 8⟩]).map
        Fragment.spans)[0]? = some [] ∧
    ((fragmentize ⟨0, [], "abcdefghij".toList⟩ [⟨0, 2, 6⟩, ⟨0, 4, 8⟩]).map
        Fragment.spans)[1]? = some [⟨0, 2, 6⟩] ∧
    (((fragmentize ⟨0, [], "abcdefghij".toList⟩ [⟨0, 2, 6⟩, ⟨0, 4, 8⟩]).map
        Fragment.spans).getD 2 []).Perm [⟨0, 2, 6⟩, ⟨0, 4, 8⟩] ∧
    ((fragmentize ⟨0, [], "abcdefghij".toList⟩ [⟨0, 2, 6⟩, ⟨0, 4, 8⟩]).map
        Fragment.spans)[3]? = some [⟨0, 4, 8⟩] ∧
    ((fragmentize ⟨0, [], "abcdefghij".toList⟩ [⟨0, 2, 6⟩, ⟨0, 4, 8⟩]).map
        Fragment.spans)[4]? = some [] ∧
    (∀ f ∈ fragmentize ⟨0, [], "abcdefghij".toList⟩ [⟨0, 2, 6⟩, ⟨0, 4, 8⟩],
      f.spans.Pairwise spanOrder) ∧
    fragmentsText (fragmentize ⟨0, [], "abcdefghij".toList⟩ [⟨0, 2, 6⟩, ⟨0, 4, 8⟩]) =
      "abcdefghij".toList ∧
    ∀ l : List Span, l.Perm [⟨0, 2, 6⟩, ⟨0, 4, 8⟩] →
      sortSpansByLength l = [⟨0, 2, 6⟩, ⟨0, 4, 8⟩] ∨
      sortSpansByLength l = [⟨0, 4, 8⟩, ⟨0, 2, 6⟩] := by
  refine ⟨by decide, by decide, by decide, by decide, by decide, by decide, by decide,
    by decide, by decide, ?_⟩
  intro l hl
  rcases perm_pair_eq hl with rfl | rfl
  · left; decide
  · right; decide

/-- Witness for the amended C3: the reversed enumeration `[S2,S1]` of
the active set `{S1,S2}` is an admissible input to the final sort and
realises the second of the two allowed tie orders. -/
theorem concrete_scenario_slicing_amended_witness :
    ([(⟨0, 4, 8⟩ : Span), ⟨0, 2, 6⟩].Perm [⟨0, 2, 6⟩, ⟨0, 4, 8⟩]) ∧
    (sortSpansByLength [(⟨0, 4, 8⟩ : Span), ⟨0, 2, 6⟩] = [⟨0, 2, 6⟩, ⟨0, 4, 8⟩] ∨
     sortSpansByLength [(⟨0, 4, 8⟩ : Span), ⟨0, 2, 6⟩] = [⟨0, 4, 8⟩, ⟨0, 2, 6⟩]) :=
  ⟨List.Perm.swap _ _ _,
   concrete_scenario_slicing_amended.2.2.2.2.2.2.2.2.2
     [⟨0, 4, 8⟩, ⟨0, 2, 6⟩] (List.Perm.swap _ _ _)⟩

/-! ### The slicer over Python `int` offsets

The renderer performs no range checks, so span offsets handed to
`add_span` are arbitrary Python `int`s: they may be negative or exceed
the file length, and `content[start_mark:mark]` then uses Python's
slice semantics (negative indices count from the end).  The following
is the same `_FragmentSlicer` pipeline embedded at type `ℤ`, used for
the malformed-span analysis. -/

structure ZSpan where
  file : ℕ
  start : ℤ
  «end» : ℤ
deriving DecidableEq

/-- Clamp one Python slice index: a negative index counts from the end
(`len + i`, floored at 0), a nonnegative one is capped at `len`. -/
def pyIndex (len : ℕ) (i : ℤ) : ℕ :=
  if i < 0 then ((len : ℤ) + i).toNat else min i.toNat len

/-- Python string slicing `s[a:b]` (step 1). -/
def pySlice (s : List Char) (a b : ℤ) : List Char :=
  (s.take (pyIndex s.length b)).drop (pyIndex s.length a)

structure ZFragment where
  content : List (List Char)
  spans : List ZSpan
deriving DecidableEq

/-- The `Fragment(...)` constructor over `ℤ`-offset spans. -/
def ZFragment.make (content : List Char) (spans : List ZSpan) : ZFragment :=
  ⟨splitlines content, spans⟩

structure ZFragmentSlicer where
  slicing_marks : List ℤ
  start_to_spans : ℤ → List ZSpan
  end_to_spans : ℤ → List ZSpan

def ZFragmentSlicer.init : ZFragmentSlicer := ⟨[], fun _ => [], fun _ => []⟩

/-- `_FragmentSlicer.add_span` over `ℤ` offsets. -/
def zadd_span (sl : ZFragmentSlicer) (span : ZSpan) : ZFragmentSlicer :=
  ⟨setAdd (setAdd sl.slicing_marks span.start) span.«end»,
   fun k => if k = span.start then setAdd (sl.start_to_spans k) span else sl.start_to_spans k,
   fun k => if k = span.«end» then setAdd (sl.end_to_spans k) span else sl.end_to_spans k⟩

def zspan_key (s : ZSpan) : ℤ := s.«end» - s.start

def zspanOrder (a b : ZSpan) : Prop := zspan_key b ≤ zspan_key a

instance : DecidableRel zspanOrder :=
  fun a b => decidable_of_iff (zspan_key b ≤ zspan_key a) Iff.rfl

def zsortSpans (l : List ZSpan) : List ZSpan := List.insertionSort zspanOrder l

def zactiveStep (sl : ZFragmentSlicer) (acc : List ZSpan) (mark : ℤ) : List ZSpan :=
  setDiff (setUnion acc (sl.start_to_spans mark)) (sl.end_to_spans mark)

def zactiveLoop (sl : ZFragmentSlicer) (acc : List ZSpan) : List ℤ → List (List ZSpan)
  | [] => []
  | mark :: rest => zactiveStep sl acc mark :: zactiveLoop sl (zactiveStep sl acc mark) rest

/-- The zip loop of `slice` with Python slicing of the content. -/
def zfragsLoop (content : List Char) : List (List ZSpan) → List ℤ → ℤ → List ZFragment
  | _, [], _ => []
  | [], _ :: _, _ => []
  | fragment_spans :: restSpans, mark :: restMarks, start_mark =>
      ZFragment.make (pySlice content start_mark mark) (zsortSpans fragment_spans)
        :: zfragsLoop content restSpans restMarks mark

def zsliceMarks (sl : ZFragmentSlicer) : List ℤ :=
  sl.slicing_marks.filter (fun m => decide (m ≠ 0))

def zsortedMarks (sl : ZFragmentSlicer) : List ℤ :=
  List.insertionSort (· ≤ ·) (zsliceMarks sl)

def zsliceSeed (sl : ZFragmentSlicer) : List ZSpan :=
  setDiff (sl.start_to_spans 0) (sl.end_to_spans 0)

def zspanSets (sl : ZFragmentSlicer) : List (List ZSpan) :=
  zsliceSeed sl :: zactiveLoop sl (zsliceSeed sl) (zsortedMarks sl)

def zfinalMarks (sl : ZFragmentSlicer) (len : ℕ) : List ℤ :=
  if (zsortedMarks sl).getLastD 0 < (len : ℤ) then zsortedMarks sl ++ [(len : ℤ)]
  else zsortedMarks sl

/-- `_FragmentSlicer.slice` over `ℤ` offsets. -/
def zslice (sl : ZFragmentSlicer) (file : File) : List ZFragment :=
  if zsliceMarks sl = [] then [ZFragment.make file.text []]
  else zfragsLoop file.text (zspanSets sl) (zfinalMarks sl file.text.length) 0

/-- `fragmentize` over `ℤ` offsets. -/
def zfragmentize (file : File) (spans : List ZSpan) : List ZFragment :=
  zslice (spans.foldl zadd_span ZFragmentSlicer.init) file

def zfragmentsText (fs : List ZFragment) : List Char :=
  (fs.map (fun f => f.content.flatten)).flatten

/-- The embedding of `ℕ`-offset spans into `ℤ`-offset spans. -/
def toZSpan (s : Span) : ZSpan := ⟨s.file, (s.start : ℤ), (s.«end» : ℤ)⟩

/-- Truncation of a `ℤ`-offset span to `ℕ` offsets (faithful on
nonnegative offsets). -/
def toSpan (s : ZSpan) : Span := ⟨s.file, s.start.toNat, s.«end».toNat⟩

def zfragOfFrag (f : Fragment) : ZFragment := ⟨f.content, f.spans.map toZSpan⟩

/-- Correspondence between a `ℕ`-offset slicer state and a `ℤ`-offset
slicer state. -/
def slicerRel (nsl : FragmentSlicer) (zsl : ZFragmentSlicer) : Prop :=
  zsl.slicing_marks = nsl.slicing_marks.map (fun n : ℕ => (n : ℤ)) ∧
  (∀ n : ℕ, zsl.start_to_spans (n : ℤ) = (nsl.start_to_spans n).map toZSpan) ∧
  (∀ n : ℕ, zsl.end_to_spans (n : ℤ) = (nsl.end_to_spans n).map toZSpan)

theorem toZSpan_inj : Function.Injective toZSpan := by
  intro a b h
  cases a with
  | mk f1 s1 e1 =>
    cases b with
    | mk f2 s2 e2 =>
      simp only [toZSpan, ZSpan.mk.injEq, Nat.cast_inj] at h
      obtain ⟨hf, hs, he⟩ := h
      rw [hf, hs, he]

theorem cast_injZ : Function.Injective (fun n : ℕ => (n : ℤ)) := by
  intro a b h
  have h2 : (a : ℤ) = (b : ℤ) := h
  exact_mod_cast h2

theorem toZSpan_toSpan {s : ZSpan} (h1 : 0 ≤ s.start) (h2 : 0 ≤ s.«end») :
    toZSpan (toSpan s) = s := by
  cases s with
  | mk f a b =>
      simp only [toSpan, toZSpan]
      rw [Int.toNat_of_nonneg h1, Int.toNat_of_nonneg h2]

theorem map_setAdd [DecidableEq α] [DecidableEq β] {f : α → β}
    (hf : Function.Injective f) (xs : List α) (x : α) :
    (setAdd xs x).map f = setAdd (xs.map f) (f x) := by
  unfold setAdd
  by_cases hx : x ∈ xs
  · rw [if_pos hx, if_pos (List.mem_map_of_mem f hx)]
  · have hfx : f x ∉ xs.map f := by
      intro hmem
      obtain ⟨y, hy, hxy⟩ := List.mem_map.mp hmem
      exact hx (hf hxy ▸ hy)
    rw [if_neg hx, if_neg hfx, List.map_append]
    rfl

theorem map_filter_not_mem [DecidableEq α] [DecidableEq β] {f : α → β}
    (hf : Function.Injective f) (zs : List α) :
    ∀ l : List α, (l.filter (fun y => decide (y ∉ zs))).map f =
      (l.map f).filter (fun y => decide (y ∉ zs.map f)) := by
  intro l
  induction l with
  | nil => rfl
  | cons y ys ih =>
      simp only [List.filter_cons, List.map_cons]
      by_cases hy : y ∈ zs
      · have hfy : f y ∈ zs.map f := List.mem_map_of_mem f hy
        rw [if_neg (by simp [hy]), if_neg (by simp [hfy])]
        exact ih
      · have hfy : f y ∉ zs.map f := by
          intro hmem
          obtain ⟨z, hz, hzy⟩ := List.mem_map.mp hmem
          exact hy (hf hzy ▸ hz)
        rw [if_pos (by simp [hy]), if_pos (by simp [hfy]), List.map_cons, ih]

theorem map_setUnion [DecidableEq α] [DecidableEq β] {f : α → β}
    (hf : Function.Injective f) (xs ys : List α) :
    (setUnion xs ys).map f = setUnion (xs.map f) (ys.map f) := by
  unfold setUnion
  rw [List.map_append, map_filter_not_mem hf xs ys]

theorem map_setDiff [DecidableEq α] [DecidableEq β] {f : α → β}
    (hf : Function.Injective f) (xs ys : List α) :
    (setDiff xs ys).map f = setDiff (xs.map f) (ys.map f) := by
  unfold setDiff
  exact map_filter_not_mem hf ys xs

theorem map_getLastD : ∀ (l : List ℕ) (d : ℕ),
    (l.map (fun n : ℕ => (n : ℤ))).getLastD ((d : ℕ) : ℤ) = ((l.getLastD d : ℕ) : ℤ) := by
  intro l
  induction l with
  | nil => intro d; rfl
  | cons a l ih =>
      intro d
      rw [List.map_cons, List.getLastD_cons, List.getLastD_cons]
      exact ih a

theorem map_filter_ne_zero : ∀ (l : List ℕ),
    (l.map (fun n : ℕ => (n : ℤ))).filter (fun m => decide (m ≠ 0)) =
      (l.filter (fun m => decide (m ≠ 0))).map (fun n : ℕ => (n : ℤ)) := by
  intro l
  induction l with
  | nil => rfl
  | cons n l ih =>
      simp only [List.map_cons, List.filter_cons]
      by_cases hn : n = 0
      · rw [if_neg (by simp [hn]), if_neg (by simp [hn])]
        exact ih
      · rw [if_pos (by simp [hn]), if_pos (by simp [hn]), List.map_cons, ih]

theorem pySlice_cast (s : List Char) (p m : ℕ) :
    pySlice s (p : ℤ) (m : ℤ) = (s.drop p).take (m - p) := by
  unfold pySlice pyIndex
  rw [if_neg (not_lt.mpr (Int.natCast_nonneg m)), if_neg (not_lt.mpr (Int.natCast_nonneg p)),
    Int.toNat_natCast, Int.toNat_natCast]
  have h1 : s.take (min m s.length) = s.take m := by
    rcases le_total m s.length with h | h
    · rw [min_eq_left h]
    · rw [min_eq_right h, List.take_of_length_le (le_refl s.length),
        List.take_of_length_le h]
  rw [h1]
  have h2 : (s.take m).drop (min p s.length) = (s.take m).drop p := by
    rcases le_total p s.length with h | h
    · rw [min_eq_left h]
    · have hlen : (s.take m).length ≤ s.length := by
        rw [List.length_take]
        exact min_le_right _ _
      rw [min_eq_right h, List.drop_eq_nil_of_le hlen,
        List.drop_eq_nil_of_le (le_trans hlen h)]
  rw [h2, List.drop_take]

theorem slicerRel_init : slicerRel FragmentSlicer.init ZFragmentSlicer.init :=
  ⟨rfl, fun _ => rfl, fun _ => rfl⟩

theorem slicerRel_add_span {nsl : FragmentSlicer} {zsl : ZFragmentSlicer}
    (h : slicerRel nsl zsl) {s : ZSpan} (h1 : 0 ≤ s.start) (h2 : 0 ≤ s.«end») :
    slicerRel (add_span nsl (toSpan s)) (zadd_span zsl s) := by
  obtain ⟨hm, hst, hen⟩ := h
  have e1 : (((toSpan s).start : ℕ) : ℤ) = s.start := Int.toNat_of_nonneg h1
  have e2 : (((toSpan s).«end» : ℕ) : ℤ) = s.«end» := Int.toNat_of_nonneg h2
  have etz : toZSpan (toSpan s) = s := toZSpan_toSpan h1 h2
  refine ⟨?_, ?_, ?_⟩
  · show setAdd (setAdd zsl.slicing_marks s.start) s.«end» =
      (setAdd (setAdd nsl.slicing_marks (toSpan s).start) (toSpan s).«end»).map
        (fun n : ℕ => (n : ℤ))
    rw [hm]
    simp only [map_setAdd cast_injZ, e1, e2]
  · intro n
    show (if (n : ℤ) = s.start then setAdd (zsl.start_to_spans (n : ℤ)) s
          else zsl.start_to_spans (n : ℤ)) =
      ((if n = (toSpan s).start then setAdd (nsl.start_to_spans n) (toSpan s)
        else nsl.start_to_spans n)).map toZSpan
    by_cases hc : n = (toSpan s).start
    · have hcz : (n : ℤ) = s.start := by rw [hc]; exact e1
      rw [if_pos hcz, if_pos hc, hst n, map_setAdd toZSpan_inj, etz]
    · have hcz : (n : ℤ) ≠ s.start := by
        intro he
        apply hc
        have h3 : ((n : ℕ) : ℤ) = (((toSpan s).start : ℕ) : ℤ) := by rw [he, e1]
        exact_mod_cast h3
      rw [if_neg hcz, if_neg hc, hst n]
  · intro n
    show (if (n : ℤ) = s.«end» then setAdd (zsl.end_to_spans (n : ℤ)) s
          else zsl.end_to_spans (n : ℤ)) =
      ((if n = (toSpan s).«end» then setAdd (nsl.end_to_spans n) (toSpan s)
        else nsl.end_to_spans n)).map toZSpan
    by_cases hc : n = (toSpan s).«end»
    · have hcz : (n : ℤ) = s.«end» := by rw [hc]; exact e2
      rw [if_pos hcz, if_pos hc, hen n, map_setAdd toZSpan_inj, etz]
    · have hcz : (n : ℤ) ≠ s.«end» := by
        intro he
        apply hc
        have h3 : ((n : ℕ) : ℤ) = (((toSpan s).«end» : ℕ) : ℤ) := by rw [he, e2]
        exact_mod_cast h3
      rw [if_neg hcz, if_neg hc, hen n]

theorem slicerRel_foldl : ∀ (spans : List ZSpan) (nsl : FragmentSlicer)
    (zsl : ZFragmentSlicer), slicerRel nsl zsl →
    (∀ s ∈ spans, 0 ≤ s.start ∧ 0 ≤ s.«end») →
    slicerRel ((spans.map toSpan).foldl add_span nsl) (spans.foldl zadd_span zsl) := by
  intro spans
  induction spans with
  | nil => intro nsl zsl h _; exact h
  | cons s spans ih =>
      intro nsl zsl h hnn
      rw [List.map_cons, List.foldl_cons, List.foldl_cons]
      exact ih _ _
        (slicerRel_add_span h (hnn s (List.mem_cons_self s spans)).1
          (hnn s (List.mem_cons_self s spans)).2)
        (fun t ht => hnn t (List.mem_cons_of_mem s ht))

theorem zsliceMarks_rel {nsl : FragmentSlicer} {zsl : ZFragmentSlicer}
    (h : slicerRel nsl zsl) :
    zsliceMarks zsl = (sliceMarks nsl).map (fun n : ℕ => (n : ℤ)) := by
  unfold zsliceMarks sliceMarks
  rw [h.1, map_filter_ne_zero]

theorem zsortedMarks_rel {nsl : FragmentSlicer} {zsl : ZFragmentSlicer}
    (h : slicerRel nsl zsl) :
    zsortedMarks zsl = (sortedMarks nsl).map (fun n : ℕ => (n : ℤ)) := by
  unfold zsortedMarks sortedMarks
  rw [zsliceMarks_rel h]
  exact (List.map_insertionSort (fun a b : ℕ => a ≤ b) (fun a b : ℤ => a ≤ b)
    (fun n : ℕ => (n : ℤ)) (sliceMarks nsl) (fun a _ b _ => (Nat.cast_le).symm)).symm

theorem zsliceSeed_rel {nsl : FragmentSlicer} {zsl : ZFragmentSlicer}
    (h : slicerRel nsl zsl) :
    zsliceSeed zsl = (sliceSeed nsl).map toZSpan := by
  unfold zsliceSeed sliceSeed
  have h0s : zsl.start_to_spans 0 = (nsl.start_to_spans 0).map toZSpan := h.2.1 0
  have h0e : zsl.end_to_spans 0 = (nsl.end_to_spans 0).map toZSpan := h.2.2 0
  rw [h0s, h0e, ← map_setDiff toZSpan_inj]

theorem zactiveStep_rel {nsl : FragmentSlicer} {zsl : ZFragmentSlicer}
    (h : slicerRel nsl zsl) (acc : List Span) (m : ℕ) :
    zactiveStep zsl (acc.map toZSpan) ((m : ℕ) : ℤ) = (activeStep nsl acc m).map toZSpan := by
  unfold zactiveStep activeStep
  rw [h.2.1 m, h.2.2 m, ← map_setUnion toZSpan_inj, ← map_setDiff toZSpan_inj]

theorem zactiveLoop_rel {nsl : FragmentSlicer} {zsl : ZFragmentSlicer}
    (h : slicerRel nsl zsl) :
    ∀ (ms : List ℕ) (acc : List Span),
      zactiveLoop zsl (acc.map toZSpan) (ms.map (fun n : ℕ => (n : ℤ))) =
        (activeLoop nsl acc ms).map (List.map toZSpan) := by
  intro ms
  induction ms with
  | nil => intro acc; rfl
  | cons m ms ih =>
      intro acc
      show zactiveStep zsl (acc.map toZSpan) ((m : ℕ) : ℤ) ::
          zactiveLoop zsl (zactiveStep zsl (acc.map toZSpan) ((m : ℕ) : ℤ))
            (ms.map (fun n : ℕ => (n : ℤ))) =
        ((activeStep nsl acc m).map toZSpan :: (activeLoop nsl (activeStep nsl acc m) ms).map
          (List.map toZSpan))
      rw [zactiveStep_rel h acc m, ih (activeStep nsl acc m)]

theorem zspanSets_rel {nsl : FragmentSlicer} {zsl : ZFragmentSlicer}
    (h : slicerRel nsl zsl) :
    zspanSets zsl = (spanSets nsl).map (List.map toZSpan) := by
  unfold zspanSets spanSets
  rw [List.map_cons, zsliceSeed_rel h, zsortedMarks_rel h, zactiveLoop_rel h]

theorem zfinalMarks_rel {nsl : FragmentSlicer} {zsl : ZFragmentSlicer}
    (h : slicerRel nsl zsl) (len : ℕ) :
    zfinalMarks zsl len = (finalMarks nsl len).map (fun n : ℕ => (n : ℤ)) := by
  unfold zfinalMarks finalMarks
  rw [zsortedMarks_rel h]
  have hl : (((sortedMarks nsl).map (fun n : ℕ => (n : ℤ))).getLastD (0 : ℤ)) =
      (((sortedMarks nsl).getLastD 0 : ℕ) : ℤ) := map_getLastD (sortedMarks nsl) 0
  rw [hl]
  by_cases hc : (sortedMarks nsl).getLastD 0 < len
  · rw [if_pos (by exact_mod_cast hc), if_pos hc, List.map_append]
    rfl
  · rw [if_neg (by exact_mod_cast hc), if_neg hc]

theorem zsortSpans_map (l : List Span) :
    zsortSpans (l.map toZSpan) = (sortSpansByLength l).map toZSpan := by
  unfold zsortSpans sortSpansByLength
  exact (List.map_insertionSort spanOrder zspanOrder toZSpan l
    (fun a _ b _ => Iff.rfl)).symm

theorem zfragsLoop_map (content : List Char) :
    ∀ (ms : List ℕ) (ss : List (List Span)) (p : ℕ),
      zfragsLoop content (ss.map (List.map toZSpan)) (ms.map (fun n : ℕ => (n : ℤ)))
          ((p : ℕ) : ℤ) =
        (fragsLoop content ss ms p).map zfragOfFrag := by
  intro ms
  induction ms with
  | nil =>
      intro ss p
      cases ss <;> rfl
  | cons m ms ih =>
      intro ss p
      cases ss with
      | nil => rfl
      | cons sp ss2 =>
          show ZFragment.make (pySlice content ((p : ℕ) : ℤ) ((m : ℕ) : ℤ))
                (zsortSpans (sp.map toZSpan)) ::
              zfragsLoop content (ss2.map (List.map toZSpan))
                (ms.map (fun n : ℕ => (n : ℤ))) ((m : ℕ) : ℤ) = _
          rw [pySlice_cast, zsortSpans_map, ih ss2 m]
          rfl

theorem zslice_rel {nsl : FragmentSlicer} {zsl : ZFragmentSlicer}
    (h : slicerRel nsl zsl) (file : File) :
    zslice zsl file = (slice nsl file).map zfragOfFrag := by
  unfold zslice slice
  rw [zsliceMarks_rel h]
  by_cases hc : sliceMarks nsl = []
  · simp [hc, zfragOfFrag, ZFragment.make, Fragment.make]
  · have hc2 : (sliceMarks nsl).map (fun n : ℕ => (n : ℤ)) ≠ [] := by
      simpa using hc
    rw [if_neg hc2, if_neg hc, zspanSets_rel h, zfinalMarks_rel h]
    have h3 := zfragsLoop_map file.text (finalMarks nsl file.text.length) (spanSets nsl) 0
    simpa using h3

theorem zfragmentize_rel (file : File) (spans : List ZSpan)
    (h : ∀ s ∈ spans, 0 ≤ s.start ∧ 0 ≤ s.«end») :
    zfragmentize file spans = (fragmentize file (spans.map toSpan)).map zfragOfFrag := by
  unfold zfragmentize fragmentize
  exact zslice_rel
    (slicerRel_foldl spans FragmentSlicer.init ZFragmentSlicer.init slicerRel_init h) file

theorem zfragmentsText_map (fs : List Fragment) :
    zfragmentsText (fs.map zfragOfFrag) = fragmentsText fs := by
  unfold zfragmentsText fragmentsText
  rw [List.map_map]
  rfl

/-- Counterexample to **C9**: the malformed span `(-3,5)` (start
outside `[0, len]`) is neither rejected nor reported, and this time
the *partition law itself* breaks: Python's negative slicing turns the
three segments into `"abcdefg"`, `""`, `"fghij"`, so the fragment
contents concatenate to `"abcdefgfghij"` — the text `"fg"` is
duplicated, and the fragment boundaries are silently corrupted.  In
addition, the malformed span `[6,2)` (`start > end`) is silently
attached to the fragment occupying offsets `[6,10)` although the span
covers no offset at all — a corrupted active-span annotation. -/
theorem malformed_span_counterexample :
    zfragmentsText (zfragmentize ⟨0, [], "abcdefghij".toList⟩ [⟨0, -3, 5⟩]) =
      "abcdefgfghij".toList ∧
    "abcdefgfghij".toList ≠ "abcdefghij".toList ∧
    (fragmentize ⟨0, [], "abcdefghij".toList⟩ [⟨0, 6, 2⟩])[2]? =
      some (Fragment.mk [['g', 'h', 'i', 'j']] [⟨0, 6, 2⟩]) ∧
    ∀ o : ℕ, ¬((Span.mk 0 6 2).start ≤ o ∧ o < (Span.mk 0 6 2).«end») := by
  refine ⟨by decide, by decide, by decide, ?_⟩
  intro o h
  have h1 : 6 ≤ o := h.1
  have h2 : o < 2 := h.2
  omega

/-- **C9 (amended).** Slicing never rejects a malformed span and never
raises: `slice` is total and silently accepts every span.  As long as
all offsets are nonnegative the partition law survives even malformed
spans (`start > end`, or offsets beyond the file length): the fragment
contents still concatenate to the exact file text, and only the
active-span annotations may be corrupted.  (With a negative offset
even the partition law fails — see the counterexample.) -/
theorem malformed_span_amended (file : File) (spans : List ZSpan)
    (hnn : ∀ s ∈ spans, 0 ≤ s.start ∧ 0 ≤ s.«end») :
    zfragmentsText (zfragmentize file spans) = file.text := by
  rw [zfragmentize_rel file spans hnn, zfragmentsText_map]
  exact fragmentsText_fragmentize file (spans.map toSpan)

/-- Witness for the amended C9: the out-of-order (but nonnegative)
span `[6,2)` still yields fragments that concatenate to the exact file
text. -/
theorem malformed_span_amended_witness :
    (∀ s ∈ [ZSpan.mk 0 6 2], 0 ≤ s.start ∧ 0 ≤ s.«end») ∧
    zfragmentsText (zfragmentize ⟨0, [], "abcdefghij".toList⟩ [ZSpan.mk 0 6 2]) =
      "abcdefghij".toList :=
  ⟨by decide,
   malformed_span_amended ⟨0, [], "abcdefghij".toList⟩ [ZSpan.mk 0 6 2] (by decide)⟩

/-! ### The `_Renderer`: identifiers, statistics and cross references -/

/-- Index of the first occurrence of `x` in a list (0 when absent at
the end). -/
def listIdx [DecidableEq α] (x : α) : List α → ℕ
  | [] => 0
  | y :: ys => if x = y then 0 else listIdx x ys + 1

/-- Modelled from the spec: `IdStore` (external utility, `..data`)
"assigns stable, insertion-ordered integer-like identifiers to
arbitrary objects on first sight, memoized".  The store is the list of
objects in first-sight order; an object's id is its index. -/
def idStoreGet [DecidableEq α] (store : List α) (x : α) : List α × ℕ :=
  if x ∈ store then (store, listIdx x store) else (store ++ [x], store.length)

/-- The id `idStoreGet` assigns to `x` against `store`. -/
def storeId [DecidableEq α] (store : List α) (x : α) : ℕ := (idStoreGet store x).2

/-- A `Group` as consumed by the renderer: a cluster of spans
(external input type). -/
structure Group where
  spans : List Span
deriving DecidableEq

/-- State of `_Renderer`: the fragment-id counter (initially `-1`) and
the two per-task `IdStore`s. -/
structure Renderer where
  frag_id_counter : ℤ
  span_id_store : List Span
  group_id_store : List Group
deriving DecidableEq

/-- `_Renderer.__init__`. -/
def Renderer.init : Renderer := ⟨-1, [], []⟩

/-- Decimal digits of `n`, least significant first; the first argument
is structural fuel (`n` itself suffices). -/
def natDigitsRev : ℕ → ℕ → List ℕ
  | 0, _ => []
  | fuel + 1, n => if n = 0 then [] else n % 10 :: natDigitsRev fuel (n / 10)

/-- Models Python's decimal rendering of a natural number. -/
def natStr (n : ℕ) : List Char :=
  if n = 0 then ['0'] else ((natDigitsRev n n).map Nat.digitChar).reverse

/-- Models Python's decimal rendering of an integer (f-string `{i}`). -/
def intStr (i : ℤ) : List Char :=
  if i < 0 then '-' :: natStr i.natAbs else natStr i.toNat

/-- The fragment-id string `f"frag{c}"`. -/
def fragStr (c : ℤ) : List Char := "frag".toList ++ intStr c

/-- `_Renderer.frag_id`: increment the counter, render `f"frag{...}"`. -/
def frag_id (r : Renderer) : Renderer × List Char :=
  (⟨r.frag_id_counter + 1, r.span_id_store, r.group_id_store⟩,
   fragStr (r.frag_id_counter + 1))

/-- `_Renderer.span_id`: look `span` up in the per-task span IdStore. -/
def span_id (r : Renderer) (s : Span) : Renderer × ℕ :=
  (⟨r.frag_id_counter, (idStoreGet r.span_id_store s).1, r.group_id_store⟩,
   (idStoreGet r.span_id_store s).2)

/-- `_Renderer.group_id`: look `group` up in the per-task group IdStore. -/
def group_id (r : Renderer) (g : Group) : Renderer × ℕ :=
  (⟨r.frag_id_counter, r.span_id_store, (idStoreGet r.group_id_store g).1⟩,
   (idStoreGet r.group_id_store g).2)

/-- `HTML_Fragment` from renderer.py. -/
structure HTML_Fragment where
  id : List Char
  content : List (List Char)
  is_ignored : Bool
  is_grouped : Bool
  spans : List Span
deriving DecidableEq

/-- The `for fragment in fragmentize(...)` loop of
`_Renderer.html_fragments`, threading the renderer state. -/
def htmlFragsLoop (r : Renderer) (ignored_spans : List Span) :
    List Fragment → Renderer × List HTML_Fragment
  | [] => (r, [])
  | f :: fs =>
      let idp := frag_id r
      let isIgn := f.spans.any (fun s => decide (s ∈ ignored_spans))
      let isGrp := f.spans.any (fun s => decide (s ∉ ignored_spans))
      let rest := htmlFragsLoop idp.1 ignored_spans fs
      (rest.1, ⟨idp.2, f.content, isIgn, isGrp, f.spans⟩ :: rest.2)

/-- `_Renderer.html_fragments`. -/
def html_fragments (r : Renderer) (file : File) (spans ignored_spans : List Span) :
    Renderer × List HTML_Fragment :=
  htmlFragsLoop r ignored_spans (fragmentize file spans)

/-- `HTML_File` from renderer.py (without its `percentage` property,
defined separately below). -/
structure HTML_File where
  name : List Char
  fragments : List HTML_Fragment
  num_chars_matched : ℕ
  num_chars : ℕ
deriving DecidableEq

/-- `sum(len(line) for line in frag.content)`. -/
def htmlFragChars (f : HTML_Fragment) : ℕ := (f.content.map List.length).sum

/-- The character-counting loop of `_Renderer.html_files`: returns
`(num_chars, num_chars_matched)`. -/
def countChars : List HTML_Fragment → ℕ × ℕ
  | [] => (0, 0)
  | f :: fs =>
      let rest := countChars fs
      if f.is_ignored then rest
      else (rest.1 + htmlFragChars f,
            if f.is_grouped then rest.2 + htmlFragChars f else rest.2)

/-- A `Submission` handed to the renderer (external input type). -/
structure Submission where
  id : ℕ
  path : List Char
  files : List File
deriving DecidableEq

/-- The `for file in submission.files` loop of `_Renderer.html_files`. -/
def htmlFilesLoop (file_to_spans : File → List Span) (ignored_spans : List Span) :
    Renderer → List File → Renderer × List HTML_File
  | r, [] => (r, [])
  | r, file :: files =>
      let hf := html_fragments r file (file_to_spans file) ignored_spans
      let counts := countChars hf.2
      let rest := htmlFilesLoop file_to_spans ignored_spans hf.1 files
      (rest.1, ⟨file.name, hf.2, counts.2, counts.1⟩ :: rest.2)

/-- `_Renderer.html_files`. -/
def html_files (r : Renderer) (submission : Submission)
    (file_to_spans : File → List Span) (ignored_spans : List Span) :
    Renderer × List HTML_File :=
  htmlFilesLoop file_to_spans ignored_spans r submission.files

/-- `HTML_Submission` from renderer.py (without its `percentage`
property, defined separately below). -/
structure HTML_Submission where
  name : List Char
  files : List HTML_File
  num_chars_matched : ℕ
  num_chars : ℕ
deriving DecidableEq

/-- `_Renderer.html_submission`. -/
def html_submission (r : Renderer) (submission : Submission)
    (file_to_spans : File → List Span) (ignored_spans : List Span) :
    Renderer × HTML_Submission :=
  let hf := html_files r submission file_to_spans ignored_spans
  (hf.1, ⟨submission.path, hf.2,
    (hf.2.map HTML_File.num_chars_matched).sum,
    (hf.2.map HTML_File.num_chars).sum⟩)

/-- Python's builtin `round` (round half to even) on an exact rational. -/
def pyround (q : ℚ) : ℤ :=
  if q - ⌊q⌋ < 1 / 2 then ⌊q⌋
  else if 1 / 2 < q - ⌊q⌋ then ⌊q⌋ + 1
  else if 2 ∣ ⌊q⌋ then ⌊q⌋ else ⌊q⌋ + 1

/-- `HTML_File.percentage`:
`round(num_chars_matched / num_chars * 100)`, and `0` on
`ZeroDivisionError` (i.e. when `num_chars == 0`). -/
def HTML_File.percentage (hf : HTML_File) : ℤ :=
  if hf.num_chars = 0 then 0
  else pyround ((hf.num_chars_matched : ℚ) / (hf.num_chars : ℚ) * 100)

/-- `HTML_Submission.percentage`, same formula as for files. -/
def HTML_Submission.percentage (hs : HTML_Submission) : ℤ :=
  if hs.num_chars = 0 then 0
  else pyround ((hs.num_chars_matched : ℚ) / (hs.num_chars : ℚ) * 100)

/-- `Data` from renderer.py: the two cross-reference dictionaries as
insertion-ordered key/value lists. -/
structure Data where
  span_to_group : List (ℕ × ℕ)
  fragment_to_spans : List (List Char × List ℕ)
deriving DecidableEq

/-- Python dict assignment `d[k] = v`: replace in place, else append. -/
def dictInsert [DecidableEq κ] (d : List (κ × ν)) (k : κ) (v : ν) : List (κ × ν) :=
  if k ∈ d.map Prod.fst then d.map (fun p => if p.1 = k then (k, v) else p)
  else d ++ [(k, v)]

/-- Python dict lookup `d[k]`. -/
def dictLookup [DecidableEq κ] (d : List (κ × ν)) (k : κ) : Option ν :=
  match d with
  | [] => none
  | p :: rest => if p.1 = k then some p.2 else dictLookup rest k

/-- The list comprehension
`[self.span_id(span) for span in ...]` threading the renderer state. -/
def spanIdList (r : Renderer) : List Span → Renderer × List ℕ
  | [] => (r, [])
  | s :: ss =>
      let p := span_id r s
      let rest := spanIdList p.1 ss
      (rest.1, p.2 :: rest.2)

/-- The `for fragment in html_fragments` loop of `_Renderer.data`
building `fragment_to_spans`. -/
def dataFragLoop (ignored_spans : List Span) :
    Renderer → List (List Char × List ℕ) → List HTML_Fragment →
      Renderer × List (List Char × List ℕ)
  | r, d, [] => (r, d)
  | r, d, f :: fs =>
      if f.is_grouped then
        let p := spanIdList r (f.spans.filter (fun s => decide (s ∉ ignored_spans)))
        dataFragLoop ignored_spans p.1 (dictInsert d f.id p.2) fs
      else dataFragLoop ignored_spans r d fs

/-- The `for span in group.spans` loop of `_Renderer.data`. -/
def dataSpanLoop (gid : ℕ) :
    Renderer → List (ℕ × ℕ) → List Span → Renderer × List (ℕ × ℕ)
  | r, d, [] => (r, d)
  | r, d, s :: ss =>
      let p := span_id r s
      dataSpanLoop gid p.1 (dictInsert d p.2 gid) ss

/-- The `for group in groups` loop of `_Renderer.data` building
`span_to_group`. -/
def dataGroupLoop : Renderer → List (ℕ × ℕ) → List Group → Renderer × List (ℕ × ℕ)
  | r, d, [] => (r, d)
  | r, d, g :: gs =>
      let p := group_id r g
      let q := dataSpanLoop p.2 p.1 d g.spans
      dataGroupLoop q.1 q.2 gs

/-- `_Renderer.data`. -/
def data (r : Renderer) (html_fragments : List HTML_Fragment) (groups : List Group)
    (ignored_spans : List Span) : Renderer × Data :=
  let p := dataFragLoop ignored_spans r [] html_fragments
  let q := dataGroupLoop p.1 [] groups
  (q.1, ⟨q.2, p.2⟩)

/-! ### Fragment flags (`is_ignored` / `is_grouped`) -/

theorem htmlFragsLoop_mem (ign : List Span) :
    ∀ (fs : List Fragment) (r : Renderer) (hf : HTML_Fragment),
      hf ∈ (htmlFragsLoop r ign fs).2 →
      ∃ f ∈ fs, hf.spans = f.spans ∧ hf.content = f.content ∧
        hf.is_ignored = f.spans.any (fun s => decide (s ∈ ign)) ∧
        hf.is_grouped = f.spans.any (fun s => decide (s ∉ ign)) := by
  intro fs
  induction fs with
  | nil =>
      intro r hf h
      simp [htmlFragsLoop] at h
  | cons f fs ih =>
      intro r hf h
      simp only [htmlFragsLoop] at h
      rcases List.mem_cons.mp h with rfl | h2
      · exact ⟨f, List.mem_cons_self f fs, rfl, rfl, rfl, rfl⟩
      · obtain ⟨g, hg, h3⟩ := ih _ hf h2
        exact ⟨g, List.mem_cons_of_mem f hg, h3⟩

/-- **C4.** For every fragment produced by `_Renderer.html_fragments`,
`is_ignored` is true iff at least one of the fragment's covering spans
is in the ignored set, and `is_grouped` is true iff at least one
covering span is not in the ignored set; slicing with an empty span
set yields exactly one fragment whose content is the whole file, with
no spans and both flags false. -/
theorem html_fragment_flags (r : Renderer) (file : File) (spans ignored_spans : List Span) :
    (∀ hf ∈ (html_fragments r file spans ignored_spans).2,
      (hf.is_ignored = true ↔ ∃ s ∈ hf.spans, s ∈ ignored_spans) ∧
      (hf.is_grouped = true ↔ ∃ s ∈ hf.spans, s ∉ ignored_spans)) ∧
    (html_fragments r file [] ignored_spans).2 =
      [⟨fragStr (r.frag_id_counter + 1), splitlines file.text, false, false, []⟩] := by
  constructor
  · intro hf hmem
    obtain ⟨f, _, hsp, _, hig, hgr⟩ := htmlFragsLoop_mem ignored_spans _ r hf hmem
    constructor
    · rw [hig, List.any_eq_true, hsp]
      simp
    · rw [hgr, List.any_eq_true, hsp]
      simp
  · rfl

/-- Witness for C4: over `"ab"` with the span `[1,2)` both given and
ignored, the second produced fragment is flagged ignored because a
covering span is in the ignored set. -/
theorem html_fragment_flags_witness :
    (HTML_Fragment.mk "frag1".toList [['b']] true false [⟨0, 1, 2⟩]).is_ignored = true ↔
      ∃ s ∈ (HTML_Fragment.mk "frag1".toList [['b']] true false [⟨0, 1, 2⟩]).spans,
        s ∈ [Span.mk 0 1 2] :=
  (((html_fragment_flags Renderer.init ⟨0, [], "ab".toList⟩ [⟨0, 1, 2⟩] [⟨0, 1, 2⟩]).1
    (HTML_Fragment.mk "frag1".toList [['b']] true false [⟨0, 1, 2⟩]) (by decide))).1

/-! ### Character counts -/

theorem countChars_eq (fs : List HTML_Fragment) :
    countChars fs =
      (((fs.filter (fun f => !f.is_ignored)).map htmlFragChars).sum,
       ((fs.filter (fun f => !f.is_ignored && f.is_grouped)).map htmlFragChars).sum) := by
  induction fs with
  | nil => rfl
  | cons f fs ih =>
      simp only [countChars, ih]
      by_cases hig : f.is_ignored <;> by_cases hgr : f.is_grouped <;>
        simp [hig, hgr, Nat.add_comm]

theorem countChars_le (fs : List HTML_Fragment) :
    (countChars fs).2 ≤ (countChars fs).1 := by
  induction fs with
  | nil => exact le_refl 0
  | cons f fs ih =>
      simp only [countChars]
      by_cases hig : f.is_ignored
      · simpa [hig] using ih
      · by_cases hgr : f.is_grouped <;> simp [hig, hgr] <;> omega

theorem htmlFilesLoop_mem (fts : File → List Span) (ign : List Span) :
    ∀ (files : List File) (r : Renderer) (hf : HTML_File),
      hf ∈ (htmlFilesLoop fts ign r files).2 →
      ∃ (file : File) (r0 : Renderer), file ∈ files ∧
        hf.fragments = (html_fragments r0 file (fts file) ign).2 ∧
        hf.num_chars = (countChars hf.fragments).1 ∧
        hf.num_chars_matched = (countChars hf.fragments).2 ∧
        hf.name = file.name := by
  intro files
  induction files with
  | nil =>
      intro r hf h
      simp [htmlFilesLoop] at h
  | cons file files ih =>
      intro r hf h
      simp only [htmlFilesLoop] at h
      rcases List.mem_cons.mp h with rfl | h2
      · exact ⟨file, r, List.mem_cons_self file files, rfl, rfl, rfl, rfl⟩
      · obtain ⟨g, r0, hg, h3⟩ := ih _ hf h2
        exact ⟨g, r0, List.mem_cons_of_mem file hg, h3⟩

/-- **C5.** For every submission, `_Renderer.html_files` computes
`num_chars` as the total character count of exactly the non-ignored
fragments, and `num_chars_matched` as the total character count of
exactly the fragments that are non-ignored and grouped (a character
counts as matched only if its fragment is covered by at least one
non-ignored span); `_Renderer.html_submission`'s counts are the sums
of the per-file counts. -/
theorem html_files_char_counts (r : Renderer) (submission : Submission)
    (file_to_spans : File → List Span) (ignored_spans : List Span) :
    (∀ hf ∈ (html_files r submission file_to_spans ignored_spans).2,
      hf.num_chars =
        ((hf.fragments.filter (fun f => !f.is_ignored)).map htmlFragChars).sum ∧
      hf.num_chars_matched =
        ((hf.fragments.filter (fun f => !f.is_ignored && f.is_grouped)).map
          htmlFragChars).sum ∧
      ∀ f ∈ hf.fragments, f.is_grouped = true ↔ ∃ s ∈ f.spans, s ∉ ignored_spans) ∧
    (html_submission r submission file_to_spans ignored_spans).2.num_chars =
      ((html_submission r submission file_to_spans ignored_spans).2.files.map
        HTML_File.num_chars).sum ∧
    (html_submission r submission file_to_spans ignored_spans).2.num_chars_matched =
      ((html_submission r submission file_to_spans ignored_spans).2.files.map
        HTML_File.num_chars_matched).sum ∧
    (html_submission r submission file_to_spans ignored_spans).2.files =
      (html_files r submission file_to_spans ignored_spans).2 := by
  refine ⟨?_, rfl, rfl, rfl⟩
  intro hf hmem
  obtain ⟨file, r0, _, hfr, hnc, hncm, _⟩ := htmlFilesLoop_mem file_to_spans ignored_spans
    submission.files r hf hmem
  rw [countChars_eq] at hnc hncm
  refine ⟨hnc, hncm, ?_⟩
  intro f hf2
  rw [hfr] at hf2
  obtain ⟨g, _, hsp, _, _, hgr⟩ := htmlFragsLoop_mem ignored_spans _ r0 f hf2
  rw [hgr, List.any_eq_true, hsp]
  simp

/-- Witness for C5: over submission `{"f": "ab"}` with the span
`[1,2)` and nothing ignored, the produced file has `num_chars = 2` and
`num_chars_matched = 1`, matching the filtered sums. -/
theorem html_files_char_counts_witness :
    (HTML_File.mk "f".toList
        [⟨"frag0".toList, [['a']], false, false, []⟩,
         ⟨"frag1".toList, [['b']], false, true, [⟨0, 1, 2⟩]⟩] 1 2).num_chars =
      (((HTML_File.mk "f".toList
          [⟨"frag0".toList, [['a']], false, false, []⟩,
           ⟨"frag1".toList, [['b']], false, true, [⟨0, 1, 2⟩]⟩] 1 2).fragments.filter
            (fun f => !f.is_ignored)).map htmlFragChars).sum :=
  ((html_files_char_counts Renderer.init ⟨0, "sub".toList, [⟨0, "f".toList, "ab".toList⟩]⟩
      (fun _ => [⟨0, 1, 2⟩]) []).1
    (HTML_File.mk "f".toList
        [⟨"frag0".toList, [['a']], false, false, []⟩,
         ⟨"frag1".toList, [['b']], false, true, [⟨0, 1, 2⟩]⟩] 1 2) (by decide)).1

/-! ### Percentages -/

theorem floor_le_pyround (q : ℚ) : ⌊q⌋ ≤ pyround q := by
  unfold pyround
  split_ifs <;> omega

theorem pyround_le_floor_add_one (q : ℚ) : pyround q ≤ ⌊q⌋ + 1 := by
  unfold pyround
  split_ifs <;> omega

theorem pyround_nonneg {q : ℚ} (h : 0 ≤ q) : 0 ≤ pyround q :=
  le_trans (Int.floor_nonneg.mpr h) (floor_le_pyround q)

theorem pyround_le_100 {q : ℚ} (h : q ≤ 100) : pyround q ≤ 100 := by
  have hf : ⌊q⌋ ≤ 100 := by
    have h2 : ⌊q⌋ ≤ ⌊(100 : ℚ)⌋ := Int.floor_le_floor h
    simpa using h2
  by_cases he : ⌊q⌋ = 100
  · have h1 : q - ⌊q⌋ < 1 / 2 := by
      have h3 : q ≤ (⌊q⌋ : ℚ) := by
        rw [he]
        exact_mod_cast h
      linarith
    unfold pyround
    rw [if_pos h1, he]
  · have := pyround_le_floor_add_one q
    omega

theorem ratio_bounds {m t : ℕ} (hmt : m ≤ t) (ht : t ≠ 0) :
    0 ≤ (m : ℚ) / (t : ℚ) * 100 ∧ (m : ℚ) / (t : ℚ) * 100 ≤ 100 := by
  have ht0 : (0 : ℚ) < t := by exact_mod_cast Nat.pos_of_ne_zero ht
  constructor
  · positivity
  · have h1 : (m : ℚ) / t ≤ 1 := by
      rw [div_le_one ht0]
      exact_mod_cast hmt
    linarith

theorem percentage_aux {m t : ℕ} (hmt : m ≤ t) :
    0 ≤ (if t = 0 then 0 else pyround ((m : ℚ) / (t : ℚ) * 100)) ∧
    (if t = 0 then 0 else pyround ((m : ℚ) / (t : ℚ) * 100)) ≤ 100 := by
  split_ifs with ht
  · exact ⟨le_refl 0, by omega⟩
  · obtain ⟨h0, h100⟩ := ratio_bounds hmt ht
    exact ⟨pyround_nonneg h0, pyround_le_100 h100⟩

/-- **C7.** For every `HTML_File` and `HTML_Submission`, `percentage`
equals `round(100 * num_chars_matched / num_chars)` and equals `0`
when `num_chars` is `0`; and for files and submissions produced by the
renderer, `percentage` is an integer with `0 ≤ percentage ≤ 100`. -/
theorem percentage_law (r : Renderer) (submission : Submission)
    (file_to_spans : File → List Span) (ignored_spans : List Span) :
    (∀ hs : HTML_Submission, (hs.num_chars = 0 → hs.percentage = 0) ∧
      (hs.num_chars ≠ 0 → hs.percentage =
        pyround ((hs.num_chars_matched : ℚ) / (hs.num_chars : ℚ) * 100))) ∧
    (∀ hf : HTML_File, (hf.num_chars = 0 → hf.percentage = 0) ∧
      (hf.num_chars ≠ 0 → hf.percentage =
        pyround ((hf.num_chars_matched : ℚ) / (hf.num_chars : ℚ) * 100))) ∧
    (0 ≤ (html_submission r submission file_to_spans ignored_spans).2.percentage ∧
      (html_submission r submission file_to_spans ignored_spans).2.percentage ≤ 100) ∧
    ∀ hf ∈ (html_submission r submission file_to_spans ignored_spans).2.files,
      0 ≤ hf.percentage ∧ hf.percentage ≤ 100 := by
  have hfile : ∀ hf ∈ (html_files r submission file_to_spans ignored_spans).2,
      hf.num_chars_matched ≤ hf.num_chars := by
    intro hf hmem
    obtain ⟨_, _, _, _, hnc, hncm, _⟩ := htmlFilesLoop_mem file_to_spans ignored_spans
      submission.files r hf hmem
    rw [hnc, hncm]
    exact countChars_le _
  refine ⟨?_, ?_, ?_, ?_⟩
  · intro hs
    refine ⟨fun h => ?_, fun h => ?_⟩
    · unfold HTML_Submission.percentage
      rw [if_pos h]
    · unfold HTML_Submission.percentage
      rw [if_neg h]
  · intro hf
    refine ⟨fun h => ?_, fun h => ?_⟩
    · unfold HTML_File.percentage
      rw [if_pos h]
    · unfold HTML_File.percentage
      rw [if_neg h]
  · have hsum : (html_submission r submission file_to_spans ignored_spans).2.num_chars_matched ≤
        (html_submission r submission file_to_spans ignored_spans).2.num_chars := by
      show ((html_files r submission file_to_spans ignored_spans).2.map
          HTML_File.num_chars_matched).sum ≤
        ((html_files r submission file_to_spans ignored_spans).2.map
          HTML_File.num_chars).sum
      exact List.sum_le_sum hfile
    exact percentage_aux hsum
  · intro hf hmem
    exact percentage_aux (hfile hf hmem)

/-- Witness for C7: the percentage of a concretely rendered submission
is within `[0, 100]`. -/
theorem percentage_law_witness :
    0 ≤ (html_submission Renderer.init ⟨0, "sub".toList, [⟨0, "f".toList, "ab".toList⟩]⟩
        (fun _ => [⟨0, 1, 2⟩]) []).2.percentage ∧
    (html_submission Renderer.init ⟨0, "sub".toList, [⟨0, "f".toList, "ab".toList⟩]⟩
        (fun _ => [⟨0, 1, 2⟩]) []).2.percentage ≤ 100 :=
  (percentage_law Renderer.init ⟨0, "sub".toList, [⟨0, "f".toList, "ab".toList⟩]⟩
    (fun _ => [⟨0, 1, 2⟩]) []).2.2.1

/-! ### Fragment identifiers are fresh and distinct -/

theorem ofDigits_natDigitsRev : ∀ (fuel n : ℕ), n ≤ fuel →
    Nat.ofDigits 10 (natDigitsRev fuel n) = n := by
  intro fuel
  induction fuel with
  | zero =>
      intro n h
      have : n = 0 := by omega
      subst this
      rfl
  | succ fuel ih =>
      intro n h
      rw [natDigitsRev]
      split_ifs with h0
      · simp [h0]
      · rw [Nat.ofDigits_cons, ih (n / 10) (by omega)]
        omega

theorem natDigitsRev_lt : ∀ (fuel n : ℕ), ∀ d ∈ natDigitsRev fuel n, d < 10 := by
  intro fuel
  induction fuel with
  | zero => intro n d hd; simp [natDigitsRev] at hd
  | succ fuel ih =>
      intro n d hd
      rw [natDigitsRev] at hd
      split_ifs at hd with h0
      · simp at hd
      · rcases List.mem_cons.mp hd with rfl | hd2
        · omega
        · exact ih (n / 10) d hd2

theorem digitChar_inj_lt : ∀ a ∈ Finset.range 10, ∀ b ∈ Finset.range 10,
    Nat.digitChar a = Nat.digitChar b → a = b := by decide

theorem map_digitChar_inj : ∀ {l1 l2 : List ℕ}, (∀ d ∈ l1, d < 10) → (∀ d ∈ l2, d < 10) →
    l1.map Nat.digitChar = l2.map Nat.digitChar → l1 = l2 := by
  intro l1
  induction l1 with
  | nil =>
      intro l2 _ _ h
      cases l2 with
      | nil => rfl
      | cons b t2 => simp at h
  | cons a t1 ih =>
      intro l2 h1 h2 h
      cases l2 with
      | nil => simp at h
      | cons b t2 =>
          simp only [List.map_cons, List.cons.injEq] at h
          have hab : a = b := by
            refine digitChar_inj_lt a ?_ b ?_ h.1
            · simpa using h1 a (List.mem_cons_self a t1)
            · simpa using h2 b (List.mem_cons_self b t2)
          have ht : t1 = t2 :=
            ih (fun d hd => h1 d (List.mem_cons_of_mem a hd))
              (fun d hd => h2 d (List.mem_cons_of_mem b hd)) h.2
          rw [hab, ht]

theorem natStr_ne_zero_digits {n : ℕ} (hn : n ≠ 0)
    (h : (natDigitsRev n n).map Nat.digitChar = ['0']) : False := by
  rcases hl : natDigitsRev n n with _ | ⟨d, ds⟩
  · rw [hl] at h
    simp at h
  · rw [hl] at h
    simp only [List.map_cons, List.cons.injEq] at h
    have hds : ds = [] := by simpa using h.2
    have hd10 : d < 10 := natDigitsRev_lt n n d (by rw [hl]; exact List.mem_cons_self d ds)
    have hd0 : d = 0 := by
      refine digitChar_inj_lt d (by simpa using hd10) 0 (by simp) ?_
      simpa using h.1
    have hof := ofDigits_natDigitsRev n n (le_refl n)
    rw [hl, hds, hd0] at hof
    simp [Nat.ofDigits_cons, Nat.ofDigits_nil] at hof
    omega

theorem natStr_inj : ∀ {m n : ℕ}, natStr m = natStr n → m = n := by
  intro m n h
  unfold natStr at h
  split_ifs at h with hm hn hn
  · omega
  · exact absurd (by
      have := congrArg List.reverse h
      simpa using this.symm) (fun h2 => natStr_ne_zero_digits hn h2)
  · exact absurd (by
      have := congrArg List.reverse h
      simpa using this) (fun h2 => natStr_ne_zero_digits hm h2)
  · have h2 : (natDigitsRev m m).map Nat.digitChar = (natDigitsRev n n).map Nat.digitChar := by
      have := congrArg List.reverse h
      simpa using this
    have h3 : natDigitsRev m m = natDigitsRev n n :=
      map_digitChar_inj (natDigitsRev_lt m m) (natDigitsRev_lt n n) h2
    have hm2 := ofDigits_natDigitsRev m m (le_refl m)
    have hn2 := ofDigits_natDigitsRev n n (le_refl n)
    rw [h3, hn2] at hm2
    omega

theorem fragStr_inj_nonneg {a b : ℤ} (ha : 0 ≤ a) (hb : 0 ≤ b)
    (h : fragStr a = fragStr b) : a = b := by
  unfold fragStr intStr at h
  rw [if_neg (by omega), if_neg (by omega)] at h
  have h2 := natStr_inj (List.append_cancel_left h)
  omega

/-- Successive `frag_id` calls on one renderer, as a list of the
returned id strings. -/
def fragIdSeq : Renderer → ℕ → List (List Char)
  | _, 0 => []
  | r, n + 1 =>
      let p := frag_id r
      p.2 :: fragIdSeq p.1 n

/-- A sequence of `html_fragments` calls against one renderer,
concatenating all produced fragments (each call takes a file, its
spans and the ignored spans). -/
def runHtmlFragments : Renderer → List (File × List Span × List Span) →
    Renderer × List HTML_Fragment
  | r, [] => (r, [])
  | r, (file, spans, ign) :: rest =>
      let p := html_fragments r file spans ign
      let q := runHtmlFragments p.1 rest
      (q.1, p.2 ++ q.2)

theorem fragIdSeq_eq : ∀ (n : ℕ) (r : Renderer),
    fragIdSeq r n = (List.range n).map (fun i : ℕ => fragStr (r.frag_id_counter + 1 + (i : ℤ))) := by
  intro n
  induction n with
  | zero => intro r; rfl
  | succ n ih =>
      intro r
      rw [fragIdSeq, List.range_succ_eq_map, List.map_cons, List.map_map]
      show fragStr (r.frag_id_counter + 1) :: fragIdSeq (frag_id r).1 n = _
      rw [ih]
      congr 1
      · norm_num
      · apply List.map_congr_left
        intro i _
        show fragStr (r.frag_id_counter + 1 + 1 + (i : ℤ)) =
          fragStr (r.frag_id_counter + 1 + ((i + 1 : ℕ) : ℤ))
        congr 1
        push_cast
        ring

theorem htmlFragsLoop_ids (ign : List Span) :
    ∀ (fs : List Fragment) (r : Renderer),
      (htmlFragsLoop r ign fs).1.frag_id_counter = r.frag_id_counter + fs.length ∧
      (htmlFragsLoop r ign fs).2.map HTML_Fragment.id =
        (List.range fs.length).map (fun i : ℕ => fragStr (r.frag_id_counter + 1 + (i : ℤ))) := by
  intro fs
  induction fs with
  | nil => intro r; exact ⟨by simp [htmlFragsLoop], rfl⟩
  | cons f fs ih =>
      intro r
      obtain ⟨h1, h2⟩ := ih (frag_id r).1
      constructor
      · show (htmlFragsLoop (frag_id r).1 ign fs).1.frag_id_counter = _
        rw [h1]
        show r.frag_id_counter + 1 + (fs.length : ℤ) = _
        simp only [List.length_cons]
        push_cast
        ring
      · show fragStr (r.frag_id_counter + 1) ::
          (htmlFragsLoop (frag_id r).1 ign fs).2.map HTML_Fragment.id = _
        rw [h2, List.length_cons, List.range_succ_eq_map, List.map_cons, List.map_map]
        congr 1
        · norm_num
        · apply List.map_congr_left
          intro i _
          show fragStr (r.frag_id_counter + 1 + 1 + (i : ℤ)) =
            fragStr (r.frag_id_counter + 1 + ((i + 1 : ℕ) : ℤ))
          congr 1
          push_cast
          ring

theorem runHtmlFragments_ids : ∀ (calls : List (File × List Span × List Span))
    (r : Renderer), ∃ n : ℕ,
      (runHtmlFragments r calls).1.frag_id_counter = r.frag_id_counter + n ∧
      (runHtmlFragments r calls).2.map HTML_Fragment.id =
        (List.range n).map (fun i : ℕ => fragStr (r.frag_id_counter + 1 + (i : ℤ))) := by
  intro calls
  induction calls with
  | nil => intro r; exact ⟨0, by simp [runHtmlFragments], rfl⟩
  | cons c rest ih =>
      intro r
      obtain ⟨file, spans, ign⟩ := c
      obtain ⟨h1, h2⟩ := htmlFragsLoop_ids ign (fragmentize file spans) r
      obtain ⟨n, hn1, hn2⟩ := ih (html_fragments r file spans ign).1
      have h1a : (html_fragments r file spans ign).1.frag_id_counter =
          r.frag_id_counter + ((fragmentize file spans).length : ℤ) := h1
      have h2a : (html_fragments r file spans ign).2.map HTML_Fragment.id =
          (List.range (fragmentize file spans).length).map
            (fun i : ℕ => fragStr (r.frag_id_counter + 1 + (i : ℤ))) := h2
      refine ⟨(fragmentize file spans).length + n, ?_, ?_⟩
      · show (runHtmlFragments (html_fragments r file spans ign).1 rest).1.frag_id_counter = _
        rw [hn1, h1a]
        push_cast
        ring
      · show ((html_fragments r file spans ign).2 ++
            (runHtmlFragments (html_fragments r file spans ign).1 rest).2).map
          HTML_Fragment.id = _
        rw [List.map_append, h2a, hn2, List.range_add, List.map_append, List.map_map]
        congr 1
        apply List.map_congr_left
        intro i _
        show fragStr ((html_fragments r file spans ign).1.frag_id_counter + 1 + (i : ℤ)) =
          fragStr (r.frag_id_counter + 1 + (((fragmentize file spans).length + i : ℕ) : ℤ))
        rw [h1a]
        congr 1
        push_cast
        ring

theorem dataFragLoop_keys (ign : List Span) :
    ∀ (fs : List HTML_Fragment) (r : Renderer) (d : List (List Char × List ℕ)),
      (∀ f ∈ fs, f.id ∉ d.map Prod.fst) →
      (fs.map HTML_Fragment.id).Nodup →
      (dataFragLoop ign r d fs).2.map Prod.fst =
        d.map Prod.fst ++ (fs.filter (fun f => f.is_grouped)).map HTML_Fragment.id := by
  intro fs
  induction fs with
  | nil =>
      intro r d _ _
      simp [dataFragLoop]
  | cons f fs ih =>
      intro r d hfresh hnodup
      by_cases hgr : f.is_grouped
      · have hstep : dataFragLoop ign r d (f :: fs) =
            dataFragLoop ign (spanIdList r (f.spans.filter
                (fun s => decide (s ∉ ign)))).1
              (dictInsert d f.id (spanIdList r (f.spans.filter
                (fun s => decide (s ∉ ign)))).2) fs := by
          simp only [dataFragLoop, hgr, if_true]
        have hins : dictInsert d f.id (spanIdList r (f.spans.filter
            (fun s => decide (s ∉ ign)))).2 =
            d ++ [(f.id, (spanIdList r (f.spans.filter
              (fun s => decide (s ∉ ign)))).2)] := by
          unfold dictInsert
          rw [if_neg (hfresh f (List.mem_cons_self f fs))]
        rw [hstep, ih _ _ ?_ ?_]
        · rw [hins]
          simp only [List.map_append, List.filter_cons, hgr, List.map_cons]
          simp
        · intro g hg
          rw [hins, List.map_append]
          simp only [List.mem_append]
          rintro (hk | hk)
          · exact hfresh g (List.mem_cons_of_mem f hg) hk
          · simp only [List.map_cons, List.map_nil, List.mem_singleton] at hk
            have : g.id ∈ fs.map HTML_Fragment.id := List.mem_map_of_mem _ hg
            rw [List.map_cons] at hnodup
            exact (List.nodup_cons.mp hnodup).1 (hk ▸ this)
        · rw [List.map_cons] at hnodup
          exact (List.nodup_cons.mp hnodup).2
      · have hstep : dataFragLoop ign r d (f :: fs) = dataFragLoop ign r d fs := by
          simp [dataFragLoop, hgr]
        rw [hstep, ih _ _ (fun g hg => hfresh g (List.mem_cons_of_mem f hg))
          (by rw [List.map_cons] at hnodup; exact (List.nodup_cons.mp hnodup).2)]
        simp [List.filter_cons, hgr]

/-- **C10.** Within one `_Renderer` instance, successive `frag_id`
calls return `"frag0"`, `"frag1"`, …; all fragment ids produced across
`html_fragments` calls are pairwise distinct; consequently the
`fragment_to_spans` dictionary built by `data` from those fragments
has exactly one entry per grouped fragment, in order, with no key
overwritten. -/
theorem frag_ids_fresh (calls : List (File × List Span × List Span)) (n : ℕ)
    (r : Renderer) (ignored_spans : List Span) :
    fragIdSeq Renderer.init n = (List.range n).map (fun i : ℕ => fragStr (i : ℤ)) ∧
    ((runHtmlFragments Renderer.init calls).2.map HTML_Fragment.id).Nodup ∧
    (dataFragLoop ignored_spans r [] (runHtmlFragments Renderer.init calls).2).2.map
        Prod.fst =
      ((runHtmlFragments Renderer.init calls).2.filter
        (fun f => f.is_grouped)).map HTML_Fragment.id := by
  have hnodup : ((runHtmlFragments Renderer.init calls).2.map HTML_Fragment.id).Nodup := by
    obtain ⟨m, _, hm⟩ := runHtmlFragments_ids calls Renderer.init
    rw [hm]
    refine List.Nodup.map_on ?_ (List.nodup_range m)
    intro x hx y hy hxy
    have hx0 : (0 : ℤ) ≤ Renderer.init.frag_id_counter + 1 + (x : ℤ) := by
      show (0 : ℤ) ≤ -1 + 1 + (x : ℤ)
      omega
    have hy0 : (0 : ℤ) ≤ Renderer.init.frag_id_counter + 1 + (y : ℤ) := by
      show (0 : ℤ) ≤ -1 + 1 + (y : ℤ)
      omega
    have := fragStr_inj_nonneg hx0 hy0 hxy
    omega
  refine ⟨?_, hnodup, ?_⟩
  · rw [fragIdSeq_eq]
    apply List.map_congr_left
    intro i _
    show fragStr (-1 + 1 + (i : ℤ)) = fragStr (i : ℤ)
    congr 1
    ring
  · rw [dataFragLoop_keys ignored_spans _ r [] (by simp) hnodup]
    simp

/-! ### Identifier stores and dictionaries -/

theorem listIdx_append_of_mem [DecidableEq α] {x : α} (ext : List α) :
    ∀ {l : List α}, x ∈ l → listIdx x (l ++ ext) = listIdx x l := by
  intro l
  induction l with
  | nil => intro hx; cases hx
  | cons y ys ih =>
      intro hx
      by_cases hxy : x = y
      · simp [listIdx, hxy]
      · rcases List.mem_cons.mp hx with h | h
        · exact absurd h hxy
        · simp [listIdx, hxy, ih h]

theorem listIdx_append_self [DecidableEq α] {x : α} :
    ∀ {l : List α}, x ∉ l → listIdx x (l ++ [x]) = l.length := by
  intro l
  induction l with
  | nil => intro _; simp [listIdx]
  | cons y ys ih =>
      intro hx
      have hxy : x ≠ y := fun h => hx (by rw [h]; exact List.mem_cons_self y ys)
      simp [listIdx, hxy, ih fun h => hx (List.mem_cons_of_mem y h)]

theorem listIdx_inj [DecidableEq α] {x y : α} :
    ∀ {l : List α}, x ∈ l → y ∈ l → listIdx x l = listIdx y l → x = y := by
  intro l
  induction l with
  | nil => intro hx; cases hx
  | cons z zs ih =>
      intro hx hy h
      by_cases hxz : x = z <;> by_cases hyz : y = z
      · rw [hxz, hyz]
      · simp [listIdx, hxz, hyz] at h
      · simp [listIdx, hxz, hyz] at h
      · simp only [listIdx, if_neg hxz, if_neg hyz, Nat.add_right_cancel_iff] at h
        have hx2 : x ∈ zs := by
          rcases List.mem_cons.mp hx with h2 | h2
          · exact absurd h2 hxz
          · exact h2
        have hy2 : y ∈ zs := by
          rcases List.mem_cons.mp hy with h2 | h2
          · exact absurd h2 hyz
          · exact h2
        exact ih hx2 hy2 h

theorem storeId_of_mem [DecidableEq α] {store : List α} {x : α} (h : x ∈ store) :
    storeId store x = listIdx x store := by
  unfold storeId idStoreGet
  rw [if_pos h]

theorem storeId_append [DecidableEq α] {store : List α} {x : α} (h : x ∈ store)
    (ext : List α) : storeId (store ++ ext) x = storeId store x := by
  rw [storeId_of_mem (List.mem_append_left ext h), storeId_of_mem h,
    listIdx_append_of_mem ext h]

theorem storeId_inj [DecidableEq α] {store : List α} {x y : α} (hx : x ∈ store)
    (hy : y ∈ store) (h : storeId store x = storeId store y) : x = y := by
  rw [storeId_of_mem hx, storeId_of_mem hy] at h
  exact listIdx_inj hx hy h

theorem idStoreGet_spec [DecidableEq α] (store : List α) (x : α) :
    (∃ ext, (idStoreGet store x).1 = store ++ ext) ∧
    x ∈ (idStoreGet store x).1 ∧
    (idStoreGet store x).2 = storeId (idStoreGet store x).1 x := by
  by_cases h : x ∈ store
  · have he : idStoreGet store x = (store, listIdx x store) := by
      unfold idStoreGet
      rw [if_pos h]
    rw [he]
    exact ⟨⟨[], by simp⟩, h, (storeId_of_mem h).symm⟩
  · have he : idStoreGet store x = (store ++ [x], store.length) := by
      unfold idStoreGet
      rw [if_neg h]
    rw [he]
    refine ⟨⟨[x], rfl⟩, List.mem_append_right store (by simp), ?_⟩
    rw [storeId_of_mem (List.mem_append_right store (by simp)), listIdx_append_self h]

/-- The renderer's identifier stores only ever grow. -/
def rendererExtends (r r2 : Renderer) : Prop :=
  (∃ ext, r2.span_id_store = r.span_id_store ++ ext) ∧
  (∃ ext, r2.group_id_store = r.group_id_store ++ ext)

theorem rendererExtends_refl (r : Renderer) : rendererExtends r r :=
  ⟨⟨[], by simp⟩, ⟨[], by simp⟩⟩

theorem rendererExtends_trans {a b c : Renderer} (h1 : rendererExtends a b)
    (h2 : rendererExtends b c) : rendererExtends a c := by
  obtain ⟨⟨e1, he1⟩, ⟨e2, he2⟩⟩ := h1
  obtain ⟨⟨e3, he3⟩, ⟨e4, he4⟩⟩ := h2
  exact ⟨⟨e1 ++ e3, by rw [he3, he1, List.append_assoc]⟩,
         ⟨e2 ++ e4, by rw [he4, he2, List.append_assoc]⟩⟩

theorem spanId_stable {r r2 : Renderer} (h : rendererExtends r r2) {s : Span}
    (hs : s ∈ r.span_id_store) :
    storeId r2.span_id_store s = storeId r.span_id_store s := by
  obtain ⟨⟨ext, he⟩, _⟩ := h
  rw [he, storeId_append hs]

theorem spanMem_stable {r r2 : Renderer} (h : rendererExtends r r2) {s : Span}
    (hs : s ∈ r.span_id_store) : s ∈ r2.span_id_store := by
  obtain ⟨⟨ext, he⟩, _⟩ := h
  rw [he]
  exact List.mem_append_left ext hs

theorem groupId_stable {r r2 : Renderer} (h : rendererExtends r r2) {g : Group}
    (hg : g ∈ r.group_id_store) :
    storeId r2.group_id_store g = storeId r.group_id_store g := by
  obtain ⟨_, ⟨ext, he⟩⟩ := h
  rw [he, storeId_append hg]

theorem groupMem_stable {r r2 : Renderer} (h : rendererExtends r r2) {g : Group}
    (hg : g ∈ r.group_id_store) : g ∈ r2.group_id_store := by
  obtain ⟨_, ⟨ext, he⟩⟩ := h
  rw [he]
  exact List.mem_append_left ext hg

theorem span_id_extends (r : Renderer) (s : Span) :
    rendererExtends r (span_id r s).1 ∧ s ∈ (span_id r s).1.span_id_store ∧
    (span_id r s).2 = storeId (span_id r s).1.span_id_store s := by
  obtain ⟨⟨ext, he⟩, hmem, hid⟩ := idStoreGet_spec r.span_id_store s
  exact ⟨⟨⟨ext, he⟩, ⟨[], by simp [span_id]⟩⟩, hmem, hid⟩

theorem group_id_extends (r : Renderer) (g : Group) :
    rendererExtends r (group_id r g).1 ∧ g ∈ (group_id r g).1.group_id_store ∧
    (group_id r g).2 = storeId (group_id r g).1.group_id_store g := by
  obtain ⟨⟨ext, he⟩, hmem, hid⟩ := idStoreGet_spec r.group_id_store g
  exact ⟨⟨⟨[], by simp [group_id]⟩, ⟨ext, he⟩⟩, hmem, hid⟩

theorem dictLookup_of_not_mem [DecidableEq κ] {k : κ} :
    ∀ {d : List (κ × ν)}, k ∉ d.map Prod.fst → dictLookup d k = none := by
  intro d
  induction d with
  | nil => intro _; rfl
  | cons p rest ih =>
      intro h
      have hpk : p.1 ≠ k := by
        intro he
        exact h (by rw [← he]; exact List.mem_map_of_mem _ (List.mem_cons_self p rest))
      show (if p.1 = k then some p.2 else dictLookup rest k) = none
      rw [if_neg hpk]
      exact ih fun h2 => h (List.mem_cons_of_mem _ h2)

theorem dictLookup_append_left [DecidableEq κ] {k : κ} :
    ∀ {d : List (κ × ν)} (d2 : List (κ × ν)), k ∉ d.map Prod.fst →
      dictLookup (d ++ d2) k = dictLookup d2 k := by
  intro d
  induction d with
  | nil => intro d2 _; rfl
  | cons p rest ih =>
      intro d2 h
      have hpk : p.1 ≠ k := by
        intro he
        exact h (by rw [← he]; exact List.mem_map_of_mem _ (List.mem_cons_self p rest))
      show (if p.1 = k then some p.2 else dictLookup (rest ++ d2) k) = dictLookup d2 k
      rw [if_neg hpk]
      exact ih d2 fun h2 => h (List.mem_cons_of_mem _ h2)

theorem dictLookup_map_replace [DecidableEq κ] (k : κ) (v : ν) :
    ∀ {d : List (κ × ν)}, k ∈ d.map Prod.fst →
      dictLookup (d.map (fun p => if p.1 = k then (k, v) else p)) k = some v := by
  intro d
  induction d with
  | nil => intro h; simp at h
  | cons p rest ih =>
      intro h
      by_cases hpk : p.1 = k
      · show dictLookup ((if p.1 = k then (k, v) else p) :: _) k = some v
        rw [if_pos hpk]
        show (if k = k then some v else _) = some v
        rw [if_pos rfl]
      · have h2 : k ∈ rest.map Prod.fst := by
          rcases List.mem_map.mp h with ⟨q, hq, hqk⟩
          rcases List.mem_cons.mp hq with rfl | hq2
          · exact absurd hqk hpk
          · exact List.mem_map.mpr ⟨q, hq2, hqk⟩
        show dictLookup ((if p.1 = k then (k, v) else p) :: _) k = some v
        rw [if_neg hpk]
        show (if p.1 = k then some p.2 else _) = some v
        rw [if_neg hpk]
        exact ih h2

theorem dictLookup_insert_self [DecidableEq κ] (d : List (κ × ν)) (k : κ) (v : ν) :
    dictLookup (dictInsert d k v) k = some v := by
  unfold dictInsert
  split_ifs with h
  · exact dictLookup_map_replace k v h
  · rw [dictLookup_append_left [(k, v)] h]
    show (if k = k then some v else none) = some v
    rw [if_pos rfl]

theorem dictLookup_map_replace_ne [DecidableEq κ] (k k2 : κ) (v : ν) (h : k2 ≠ k) :
    ∀ (d : List (κ × ν)),
      dictLookup (d.map (fun p => if p.1 = k then (k, v) else p)) k2 = dictLookup d k2 := by
  intro d
  induction d with
  | nil => rfl
  | cons p rest ih =>
      by_cases hpk : p.1 = k
      · have hpk2 : p.1 ≠ k2 := by
          rw [hpk]
          exact fun he => h he.symm
        simp only [List.map_cons, if_pos hpk]
        show (if k = k2 then some v else dictLookup (rest.map _) k2) =
          (if p.1 = k2 then some p.2 else dictLookup rest k2)
        rw [if_neg fun he => h he.symm, if_neg hpk2, ih]
      · simp only [List.map_cons, if_neg hpk]
        show (if p.1 = k2 then some p.2 else dictLookup (rest.map _) k2) =
          (if p.1 = k2 then some p.2 else dictLookup rest k2)
        by_cases hpk2 : p.1 = k2
        · rw [if_pos hpk2, if_pos hpk2]
        · rw [if_neg hpk2, if_neg hpk2, ih]

theorem dictLookup_append_single_ne [DecidableEq κ] (k k2 : κ) (v : ν) (h : k2 ≠ k) :
    ∀ (d : List (κ × ν)), dictLookup (d ++ [(k, v)]) k2 = dictLookup d k2 := by
  intro d
  induction d with
  | nil =>
      show (if k = k2 then some v else none) = none
      rw [if_neg fun he => h he.symm]
  | cons p rest ih =>
      show (if p.1 = k2 then some p.2 else dictLookup (rest ++ [(k, v)]) k2) =
        (if p.1 = k2 then some p.2 else dictLookup rest k2)
      by_cases hpk2 : p.1 = k2
      · rw [if_pos hpk2, if_pos hpk2]
      · rw [if_neg hpk2, if_neg hpk2, ih]

theorem dictLookup_insert_ne [DecidableEq κ] (d : List (κ × ν)) {k k2 : κ} (v : ν)
    (h : k2 ≠ k) : dictLookup (dictInsert d k v) k2 = dictLookup d k2 := by
  unfold dictInsert
  split_ifs with hk
  · exact dictLookup_map_replace_ne k k2 v h d
  · exact dictLookup_append_single_ne k k2 v h d

/-! ### The two dictionary-building loops of `_Renderer.data` -/

theorem spanIdList_spec : ∀ (ss : List Span) (r : Renderer),
    rendererExtends r (spanIdList r ss).1 ∧
    (∀ s ∈ ss, s ∈ (spanIdList r ss).1.span_id_store) ∧
    (spanIdList r ss).2 =
      ss.map (fun s => storeId (spanIdList r ss).1.span_id_store s) ∧
    (spanIdList r ss).1.group_id_store = r.group_id_store := by
  intro ss
  induction ss with
  | nil => intro r; exact ⟨rendererExtends_refl r, by simp, rfl, rfl⟩
  | cons s ss ih =>
      intro r
      simp only [spanIdList]
      obtain ⟨hext1, hmem1, hid1⟩ := span_id_extends r s
      obtain ⟨hext2, hmem2, hval2, hgrp2⟩ := ih (span_id r s).1
      refine ⟨rendererExtends_trans hext1 hext2, ?_, ?_, ?_⟩
      · intro t ht
        rcases List.mem_cons.mp ht with rfl | ht2
        · exact spanMem_stable hext2 hmem1
        · exact hmem2 t ht2
      · rw [List.map_cons, ← hval2]
        congr 1
        show (span_id r s).2 =
          storeId (spanIdList (span_id r s).1 ss).1.span_id_store s
        rw [hid1]
        exact (spanId_stable hext2 hmem1).symm
      · rw [hgrp2]
        rfl

theorem dataSpanLoop_spec (gid : ℕ) :
    ∀ (ss : List Span) (r : Renderer) (d : List (ℕ × ℕ)),
      rendererExtends r (dataSpanLoop gid r d ss).1 ∧
      (∀ s ∈ ss, s ∈ (dataSpanLoop gid r d ss).1.span_id_store) ∧
      (∀ s ∈ ss, dictLookup (dataSpanLoop gid r d ss).2
          (storeId (dataSpanLoop gid r d ss).1.span_id_store s) = some gid) ∧
      (∀ k : ℕ, (∀ s ∈ ss, k ≠ storeId (dataSpanLoop gid r d ss).1.span_id_store s) →
        dictLookup (dataSpanLoop gid r d ss).2 k = dictLookup d k) ∧
      (dataSpanLoop gid r d ss).1.group_id_store = r.group_id_store := by
  intro ss
  induction ss with
  | nil =>
      intro r d
      exact ⟨rendererExtends_refl r, by simp, by simp, fun k _ => rfl, rfl⟩
  | cons s ss ih =>
      intro r d
      simp only [dataSpanLoop]
      obtain ⟨hext1, hmem1, hid1⟩ := span_id_extends r s
      obtain ⟨hext2, hmem2, hlk2, hpres2, hgrp2⟩ :=
        ih (span_id r s).1 (dictInsert d (span_id r s).2 gid)
      have hsfin : s ∈ (dataSpanLoop gid (span_id r s).1
          (dictInsert d (span_id r s).2 gid) ss).1.span_id_store :=
        spanMem_stable hext2 hmem1
      have hsid : storeId (dataSpanLoop gid (span_id r s).1
          (dictInsert d (span_id r s).2 gid) ss).1.span_id_store s = (span_id r s).2 := by
        rw [spanId_stable hext2 hmem1, hid1]
      refine ⟨rendererExtends_trans hext1 hext2, ?_, ?_, ?_, ?_⟩
      · intro t ht
        rcases List.mem_cons.mp ht with rfl | ht2
        · exact hsfin
        · exact hmem2 t ht2
      · intro t ht
        rcases List.mem_cons.mp ht with rfl | ht2
        · rcases Classical.em (∃ u ∈ ss,
              storeId (dataSpanLoop gid (span_id r t).1
                (dictInsert d (span_id r t).2 gid) ss).1.span_id_store u =
              storeId (dataSpanLoop gid (span_id r t).1
                (dictInsert d (span_id r t).2 gid) ss).1.span_id_store t)
            with ⟨u, hu, hequ⟩ | hno
          · have := hlk2 u hu
            rw [hequ] at this
            exact this
          · push_neg at hno
            rw [hpres2 _ (fun u hu he => hno u hu he.symm), hsid]
            exact dictLookup_insert_self d (span_id r t).2 gid
        · exact hlk2 t ht2
      · intro k hk
        have hks : k ≠ (span_id r s).2 := by
          have h2 := hk s (List.mem_cons_self s ss)
          rw [hsid] at h2
          exact h2
        rw [hpres2 k fun u hu => hk u (List.mem_cons_of_mem s hu)]
        exact dictLookup_insert_ne d gid hks
      · rw [hgrp2]
        rfl

theorem dataGroupLoop_spec :
    ∀ (gs : List Group) (r : Renderer) (d : List (ℕ × ℕ)),
      List.Pairwise (fun g1 g2 => ∀ s ∈ g1.spans, s ∉ g2.spans) gs →
      rendererExtends r (dataGroupLoop r d gs).1 ∧
      (∀ g ∈ gs, g ∈ (dataGroupLoop r d gs).1.group_id_store) ∧
      (∀ g ∈ gs, ∀ s ∈ g.spans,
        s ∈ (dataGroupLoop r d gs).1.span_id_store ∧
        dictLookup (dataGroupLoop r d gs).2
            (storeId (dataGroupLoop r d gs).1.span_id_store s) =
          some (storeId (dataGroupLoop r d gs).1.group_id_store g)) ∧
      (∀ k : ℕ, (∀ g ∈ gs, ∀ s ∈ g.spans,
          k ≠ storeId (dataGroupLoop r d gs).1.span_id_store s) →
        dictLookup (dataGroupLoop r d gs).2 k = dictLookup d k) := by
  intro gs
  induction gs with
  | nil =>
      intro r d _
      exact ⟨rendererExtends_refl r, by simp, by simp, fun k _ => rfl⟩
  | cons g gs ih =>
      intro r d hpw
      simp only [dataGroupLoop]
      obtain ⟨hd, hpw2⟩ := List.pairwise_cons.mp hpw
      obtain ⟨hext1, hgmem1, hgid1⟩ := group_id_extends r g
      obtain ⟨hext2, hsmem2, hslk2, hspres2, hsgrp2⟩ :=
        dataSpanLoop_spec (group_id r g).2 g.spans (group_id r g).1 d
      obtain ⟨hext3, hgmem3, hlk3, hpres3⟩ :=
        ih (dataSpanLoop (group_id r g).2 (group_id r g).1 d g.spans).1
          (dataSpanLoop (group_id r g).2 (group_id r g).1 d g.spans).2 hpw2
      have hext23 := rendererExtends_trans hext2 hext3
      have hgfin : g ∈ (dataGroupLoop
          (dataSpanLoop (group_id r g).2 (group_id r g).1 d g.spans).1
          (dataSpanLoop (group_id r g).2 (group_id r g).1 d g.spans).2
          gs).1.group_id_store :=
        groupMem_stable hext23 hgmem1
      refine ⟨rendererExtends_trans hext1 hext23, ?_, ?_, ?_⟩
      · intro g2 hg2
        rcases List.mem_cons.mp hg2 with rfl | hg3
        · exact hgfin
        · exact hgmem3 g2 hg3
      · intro g2 hg2 s hs
        rcases List.mem_cons.mp hg2 with rfl | hg3
        · -- the head group
          have hsmemq : s ∈ (dataSpanLoop (group_id r g2).2 (group_id r g2).1 d
              g2.spans).1.span_id_store := hsmem2 s hs
          have hsmemfin : s ∈ (dataGroupLoop
              (dataSpanLoop (group_id r g2).2 (group_id r g2).1 d g2.spans).1
              (dataSpanLoop (group_id r g2).2 (group_id r g2).1 d g2.spans).2
              gs).1.span_id_store := spanMem_stable hext3 hsmemq
          refine ⟨hsmemfin, ?_⟩
          have hstable : storeId (dataGroupLoop
              (dataSpanLoop (group_id r g2).2 (group_id r g2).1 d g2.spans).1
              (dataSpanLoop (group_id r g2).2 (group_id r g2).1 d g2.spans).2
              gs).1.span_id_store s =
            storeId (dataSpanLoop (group_id r g2).2 (group_id r g2).1 d
              g2.spans).1.span_id_store s := spanId_stable hext3 hsmemq
          have havoid : ∀ g3 ∈ gs, ∀ t ∈ g3.spans,
              storeId (dataGroupLoop
                (dataSpanLoop (group_id r g2).2 (group_id r g2).1 d g2.spans).1
                (dataSpanLoop (group_id r g2).2 (group_id r g2).1 d g2.spans).2
                gs).1.span_id_store s ≠
              storeId (dataGroupLoop
                (dataSpanLoop (group_id r g2).2 (group_id r g2).1 d g2.spans).1
                (dataSpanLoop (group_id r g2).2 (group_id r g2).1 d g2.spans).2
                gs).1.span_id_store t := by
            intro g3 hg3 t ht he
            have hteq : s = t := storeId_inj hsmemfin ((hlk3 g3 hg3 t ht).1) he
            exact hd g3 hg3 s hs (hteq ▸ ht)
          have hgstable : storeId (dataGroupLoop
              (dataSpanLoop (group_id r g2).2 (group_id r g2).1 d g2.spans).1
              (dataSpanLoop (group_id r g2).2 (group_id r g2).1 d g2.spans).2
              gs).1.group_id_store g2 =
            storeId (group_id r g2).1.group_id_store g2 := by
            obtain ⟨_, ⟨e2, he2⟩⟩ := hext23
            rw [he2, storeId_append hgmem1]
          rw [hpres3 _ havoid, hstable, hslk2 s hs, hgstable, hgid1]
        · exact hlk3 g2 hg3 s hs
      · intro k hk
        have h1 : ∀ g3 ∈ gs, ∀ t ∈ g3.spans,
            k ≠ storeId (dataGroupLoop
              (dataSpanLoop (group_id r g).2 (group_id r g).1 d g.spans).1
              (dataSpanLoop (group_id r g).2 (group_id r g).1 d g.spans).2
              gs).1.span_id_store t :=
          fun g3 hg3 t ht => hk g3 (List.mem_cons_of_mem g hg3) t ht
        rw [hpres3 k h1]
        refine hspres2 k ?_
        intro t ht
        have := hk g (List.mem_cons_self g gs) t ht
        rw [spanId_stable hext3 (hsmem2 t ht)] at this
        exact this

theorem dataFragLoop_spec (ign : List Span) :
    ∀ (fs : List HTML_Fragment) (r : Renderer) (d : List (List Char × List ℕ)),
      (fs.map HTML_Fragment.id).Nodup →
      rendererExtends r (dataFragLoop ign r d fs).1 ∧
      (dataFragLoop ign r d fs).1.group_id_store = r.group_id_store ∧
      (∀ f ∈ fs, f.is_grouped = true →
        (∀ s ∈ f.spans.filter (fun s => decide (s ∉ ign)),
          s ∈ (dataFragLoop ign r d fs).1.span_id_store) ∧
        dictLookup (dataFragLoop ign r d fs).2 f.id =
          some ((f.spans.filter (fun s => decide (s ∉ ign))).map
            (fun s => storeId (dataFragLoop ign r d fs).1.span_id_store s))) ∧
      (∀ k, k ∉ fs.map HTML_Fragment.id →
        dictLookup (dataFragLoop ign r d fs).2 k = dictLookup d k) := by
  intro fs
  induction fs with
  | nil =>
      intro r d _
      exact ⟨rendererExtends_refl r, rfl, by simp, fun k _ => rfl⟩
  | cons f fs ih =>
      intro r d hnodup
      have hnodup2 : (fs.map HTML_Fragment.id).Nodup := by
        rw [List.map_cons] at hnodup
        exact (List.nodup_cons.mp hnodup).2
      have hfid : f.id ∉ fs.map HTML_Fragment.id := by
        rw [List.map_cons] at hnodup
        exact (List.nodup_cons.mp hnodup).1
      by_cases hgr : f.is_grouped
      · have hstep : dataFragLoop ign r d (f :: fs) =
            dataFragLoop ign (spanIdList r (f.spans.filter
                (fun s => decide (s ∉ ign)))).1
              (dictInsert d f.id (spanIdList r (f.spans.filter
                (fun s => decide (s ∉ ign)))).2) fs := by
          simp only [dataFragLoop, hgr, if_true]
        rw [hstep]
        obtain ⟨hext1, hmem1, hval1, hgrp1⟩ :=
          spanIdList_spec (f.spans.filter (fun s => decide (s ∉ ign))) r
        obtain ⟨hext2, hgrp2, hvals2, hpres2⟩ :=
          ih (spanIdList r (f.spans.filter (fun s => decide (s ∉ ign)))).1
            (dictInsert d f.id (spanIdList r (f.spans.filter
              (fun s => decide (s ∉ ign)))).2) hnodup2
        refine ⟨rendererExtends_trans hext1 hext2, by rw [hgrp2, hgrp1], ?_, ?_⟩
        · intro g hg hggr
          rcases List.mem_cons.mp hg with rfl | hg2
          · refine ⟨fun s hs => spanMem_stable hext2 (hmem1 s hs), ?_⟩
            rw [hpres2 g.id hfid, dictLookup_insert_self]
            congr 1
            nth_rewrite 1 [hval1]
            apply List.map_congr_left
            intro s hs
            exact (spanId_stable hext2 (hmem1 s hs)).symm
          · exact hvals2 g hg2 hggr
        · intro k hk
          have hk1 : k ∉ fs.map HTML_Fragment.id := by
            intro h2
            exact hk (by rw [List.map_cons]; exact List.mem_cons_of_mem _ h2)
          have hk2 : k ≠ f.id := by
            intro h2
            exact hk (by rw [List.map_cons, h2]; exact List.mem_cons_self _ _)
          rw [hpres2 k hk1]
          exact dictLookup_insert_ne _ _ hk2
      · have hstep : dataFragLoop ign r d (f :: fs) = dataFragLoop ign r d fs := by
          simp [dataFragLoop, hgr]
        rw [hstep]
        obtain ⟨hext2, hgrp2, hvals2, hpres2⟩ := ih r d hnodup2
        refine ⟨hext2, hgrp2, ?_, ?_⟩
        · intro g hg hggr
          rcases List.mem_cons.mp hg with rfl | hg2
          · exact absurd hggr (by simpa using hgr)
          · exact hvals2 g hg2 hggr
        · intro k hk
          refine hpres2 k ?_
          intro h2
          exact hk (by rw [List.map_cons]; exact List.mem_cons_of_mem _ h2)

/-- Counterexample to **C6**: a span belonging to two groups.  In
`span_to_group` the second group's assignment overwrites the first, so
the shared span's id is *not* mapped to the first group's id, although
the claim requires every span of every group to map to its group's
id. -/
theorem data_span_two_groups_counterexample :
    ¬(∀ g ∈ [Group.mk [⟨0, 0, 1⟩], Group.mk [⟨0, 0, 1⟩, ⟨0, 2, 3⟩]], ∀ s ∈ g.spans,
        dictLookup ((data Renderer.init [] [Group.mk [⟨0, 0, 1⟩],
            Group.mk [⟨0, 0, 1⟩, ⟨0, 2, 3⟩]] []).2.span_to_group)
          (storeId ((data Renderer.init [] [Group.mk [⟨0, 0, 1⟩],
            Group.mk [⟨0, 0, 1⟩, ⟨0, 2, 3⟩]] []).1.span_id_store) s) =
        some (storeId ((data Renderer.init [] [Group.mk [⟨0, 0, 1⟩],
            Group.mk [⟨0, 0, 1⟩, ⟨0, 2, 3⟩]] []).1.group_id_store) g)) := by
  decide

/-- **C6 (amended).** For fragments with pairwise-distinct ids and
groups with pairwise-disjoint span sets, `_Renderer.data` returns a
`Data` whose `fragment_to_spans` has a key for exactly the fragments
with `is_grouped` true (in order), each mapped to the ids of that
fragment's covering spans with ignored spans excluded, and whose
`span_to_group` maps the id of every span of every group to that
group's id.  (Without the disjointness hypothesis a span in two groups
keeps only the last group's id; without distinct ids an entry can be
overwritten.) -/
theorem data_mappings (r : Renderer) (frags : List HTML_Fragment) (groups : List Group)
    (ignored_spans : List Span)
    (hids : (frags.map HTML_Fragment.id).Nodup)
    (hdisj : List.Pairwise (fun g1 g2 => ∀ s ∈ g1.spans, s ∉ g2.spans) groups) :
    ((data r frags groups ignored_spans).2.fragment_to_spans.map Prod.fst =
      (frags.filter (fun f => f.is_grouped)).map HTML_Fragment.id) ∧
    (∀ f ∈ frags, f.is_grouped = true →
      dictLookup (data r frags groups ignored_spans).2.fragment_to_spans f.id =
        some ((f.spans.filter (fun s => decide (s ∉ ignored_spans))).map
          (fun s => storeId (data r frags groups ignored_spans).1.span_id_store s))) ∧
    (∀ f ∈ frags, f.is_grouped = false →
      dictLookup (data r frags groups ignored_spans).2.fragment_to_spans f.id = none) ∧
    ∀ g ∈ groups, ∀ s ∈ g.spans,
      dictLookup (data r frags groups ignored_spans).2.span_to_group
          (storeId (data r frags groups ignored_spans).1.span_id_store s) =
        some (storeId (data r frags groups ignored_spans).1.group_id_store g) := by
  obtain ⟨hext1, hgrp1, hvals1, hpres1⟩ := dataFragLoop_spec ignored_spans frags r [] hids
  obtain ⟨hext2, hgmem2, hlk2, hpres2⟩ :=
    dataGroupLoop_spec groups (dataFragLoop ignored_spans r [] frags).1 [] hdisj
  have hkeys : (dataFragLoop ignored_spans r [] frags).2.map Prod.fst =
      (frags.filter (fun f => f.is_grouped)).map HTML_Fragment.id := by
    have h := dataFragLoop_keys ignored_spans frags r [] (by simp) hids
    simpa using h
  refine ⟨hkeys, ?_, ?_, ?_⟩
  · intro f hf hgr
    show dictLookup (dataFragLoop ignored_spans r [] frags).2 f.id = _
    obtain ⟨hmem, hval⟩ := hvals1 f hf hgr
    rw [hval]
    congr 1
    apply List.map_congr_left
    intro s hs
    exact (spanId_stable hext2 (hmem s hs)).symm
  · intro f hf hgrf
    show dictLookup (dataFragLoop ignored_spans r [] frags).2 f.id = none
    apply dictLookup_of_not_mem
    rw [hkeys]
    intro hmemk
    obtain ⟨f2, hf2, hfeq⟩ := List.mem_map.mp hmemk
    have hf2f : f2 ∈ frags := List.mem_of_mem_filter hf2
    have hf2eq : f2 = f := List.inj_on_of_nodup_map hids hf2f hf hfeq
    subst hf2eq
    have hgr2 : f2.is_grouped = true := by simpa using List.of_mem_filter hf2
    rw [hgrf] at hgr2
    exact Bool.noConfusion hgr2
  · intro g hg s hs
    exact (hlk2 g hg s hs).2

/-- Witness for `data_mappings`: one grouped fragment covering one span
that belongs to the single group; the resulting `fragment_to_spans` has
exactly that fragment's id as key. -/
theorem data_mappings_witness :
    ((([⟨['f', '0'], [['a']], false, true, [⟨0, 0, 1⟩]⟩] : List HTML_Fragment).map
        HTML_Fragment.id).Nodup ∧
      List.Pairwise (fun g1 g2 => ∀ s ∈ g1.spans, s ∉ g2.spans)
        ([⟨[⟨0, 0, 1⟩]⟩] : List Group)) ∧
    (data Renderer.init [⟨['f', '0'], [['a']], false, true, [⟨0, 0, 1⟩]⟩]
        [⟨[⟨0, 0, 1⟩]⟩] []).2.fragment_to_spans.map Prod.fst =
      (([⟨['f', '0'], [['a']], false, true, [⟨0, 0, 1⟩]⟩] : List HTML_Fragment).filter
        (fun f => f.is_grouped)).map HTML_Fragment.id :=
  ⟨⟨by decide, by decide⟩,
   (data_mappings Renderer.init
     [⟨['f', '0'], [['a']], false, true, [⟨0, 0, 1⟩]⟩]
     [⟨[⟨0, 0, 1⟩]⟩] [] (by decide) (by decide)).1⟩

/-! ### The top-level `render`: bucketing and ordering of results -/

/-- Modelled from the spec: a comparison result (an external `compare50`
data class, not defined in this file): the ordered submission pair
`(sub_a, sub_b)` and the score. -/
structure Result where
  sub_a : ℕ
  sub_b : ℕ
  score : ℤ
deriving DecidableEq, Inhabited

/-- One `sub_pair_to_results[(result.sub_a, result.sub_b)].append(result)`
step on the insertion-ordered `defaultdict(list)`: append to the entry
with this key if present, otherwise create it at the end. -/
def addToBucket : List ((ℕ × ℕ) × List Result) → Result → List ((ℕ × ℕ) × List Result)
  | [], r => [((r.sub_a, r.sub_b), [r])]
  | p :: rest, r =>
      if p.1 = (r.sub_a, r.sub_b) then (p.1, p.2 ++ [r]) :: rest
      else p :: addToBucket rest r

/-- The double loop of `render` building `sub_pair_to_results`; the
passes of `pass_to_results.values()` are iterated in order. -/
def bucketize (pass_to_results : List (List Result)) : List ((ℕ × ℕ) × List Result) :=
  pass_to_results.flatten.foldl addToBucket []

/-- The comparison of `sorted(..., key=lambda res: res[0].score,
reverse=True)`: bucket `a` may precede bucket `b` iff `b`'s first
result's score is at most `a`'s. -/
def bucketOrder (a b : List Result) : Prop := b.headI.score ≤ a.headI.score

instance : DecidableRel bucketOrder :=
  fun a b => inferInstanceAs (Decidable (b.headI.score ≤ a.headI.score))

instance : IsTotal (List Result) bucketOrder :=
  ⟨fun a b => le_total b.headI.score a.headI.score⟩

instance : IsTrans (List Result) bucketOrder :=
  ⟨fun _ _ _ hab hbc => le_trans hbc hab⟩

/-- `results_per_sub_pair = sorted(sub_pair_to_results.values(),
key=lambda res: res[0].score, reverse=True)`; Python `sorted` is stable,
as is `List.insertionSort`. -/
def resultsPerSubPair (pass_to_results : List (List Result)) : List (List Result) :=
  ((bucketize pass_to_results).map Prod.snd).insertionSort bucketOrder

/-- Python `enumerate(lst, n)`. -/
def enumFrom : ℕ → List α → List (ℕ × α)
  | _, [] => []
  | n, x :: xs => (n, x) :: enumFrom (n + 1) xs

/-- Modelled from the spec: the best (maximal) score among a bucket's
results, used by the spec's phrase "descending best score". -/
def bestScore (b : List Result) : ℤ := (b.map Result.score).foldl max b.headI.score

theorem addToBucket_keys : ∀ (d : List ((ℕ × ℕ) × List Result)) (r : Result),
    (addToBucket d r).map Prod.fst = setAdd (d.map Prod.fst) (r.sub_a, r.sub_b) := by
  intro d r
  induction d with
  | nil => simp [addToBucket, setAdd]
  | cons p rest ih =>
      by_cases h : p.1 = (r.sub_a, r.sub_b)
      · simp [addToBucket, setAdd, h]
      · simp only [addToBucket, if_neg h, List.map_cons, ih, setAdd, List.mem_cons]
        by_cases hk : (r.sub_a, r.sub_b) ∈ rest.map Prod.fst
        · simp [hk, Ne.symm h]
        · simp [hk, Ne.symm h]

theorem dictLookup_addToBucket_self : ∀ (d : List ((ℕ × ℕ) × List Result)) (r : Result),
    dictLookup (addToBucket d r) (r.sub_a, r.sub_b) =
      some ((dictLookup d (r.sub_a, r.sub_b)).getD [] ++ [r]) := by
  intro d r
  induction d with
  | nil => simp [addToBucket, dictLookup]
  | cons p rest ih =>
      by_cases h : p.1 = (r.sub_a, r.sub_b)
      · simp [addToBucket, dictLookup, h]
      · simp [addToBucket, dictLookup, h, ih]

theorem dictLookup_addToBucket_ne : ∀ (d : List ((ℕ × ℕ) × List Result)) (r : Result)
    (k : ℕ × ℕ), k ≠ (r.sub_a, r.sub_b) →
    dictLookup (addToBucket d r) k = dictLookup d k := by
  intro d r
  induction d with
  | nil => intro k hk; simp [addToBucket, dictLookup, Ne.symm hk]
  | cons p rest ih =>
      intro k hk
      by_cases h : p.1 = (r.sub_a, r.sub_b)
      · have hpk : p.1 ≠ k := by rw [h]; exact Ne.symm hk
        simp [addToBucket, dictLookup, h, Ne.symm hk, hpk]
      · simp [addToBucket, dictLookup, h, ih k hk]

theorem bucketLoop_getD : ∀ (rs : List Result) (d : List ((ℕ × ℕ) × List Result))
    (k : ℕ × ℕ),
    (dictLookup (rs.foldl addToBucket d) k).getD [] =
      (dictLookup d k).getD [] ++
        rs.filter (fun r => decide ((r.sub_a, r.sub_b) = k)) := by
  intro rs
  induction rs with
  | nil => intro d k; simp
  | cons r rs ih =>
      intro d k
      rw [List.foldl_cons, ih (addToBucket d r) k]
      by_cases h : (r.sub_a, r.sub_b) = k
      · subst h
        rw [dictLookup_addToBucket_self]
        simp [List.filter_cons]
      · rw [dictLookup_addToBucket_ne d r k (fun he => h he.symm)]
        simp [List.filter_cons, h]

theorem dictLookup_of_mem_nodup [DecidableEq κ] : ∀ {d : List (κ × ν)} {p : κ × ν},
    (d.map Prod.fst).Nodup → p ∈ d → dictLookup d p.1 = some p.2 := by
  intro d
  induction d with
  | nil => intro p _ hp; exact absurd hp (List.not_mem_nil p)
  | cons q rest ih =>
      intro p hnd hp
      rw [List.map_cons] at hnd
      rcases List.mem_cons.mp hp with rfl | hp2
      · simp [dictLookup]
      · have hq : q.1 ≠ p.1 := by
          intro he
          exact (List.nodup_cons.mp hnd).1
            (he ▸ List.mem_map_of_mem Prod.fst hp2)
        simp [dictLookup, hq, ih (List.nodup_cons.mp hnd).2 hp2]

theorem bucketLoop_keys : ∀ (rs : List Result) (d : List ((ℕ × ℕ) × List Result)),
    (rs.foldl addToBucket d).map Prod.fst =
      rs.foldl (fun ks r => setAdd ks (r.sub_a, r.sub_b)) (d.map Prod.fst) := by
  intro rs
  induction rs with
  | nil => intro d; rfl
  | cons r rs ih =>
      intro d
      rw [List.foldl_cons, List.foldl_cons, ih (addToBucket d r), addToBucket_keys]

theorem nodup_foldl_setAdd : ∀ (rs : List Result) (ks : List (ℕ × ℕ)), ks.Nodup →
    (rs.foldl (fun ks r => setAdd ks (r.sub_a, r.sub_b)) ks).Nodup := by
  intro rs
  induction rs with
  | nil => intro ks h; exact h
  | cons r rs ih => intro ks h; exact ih _ (nodup_setAdd h _)

theorem mem_foldl_setAdd : ∀ (rs : List Result) (ks : List (ℕ × ℕ)) (k : ℕ × ℕ),
    k ∈ rs.foldl (fun ks r => setAdd ks (r.sub_a, r.sub_b)) ks ↔
      k ∈ ks ∨ ∃ r ∈ rs, (r.sub_a, r.sub_b) = k := by
  intro rs
  induction rs with
  | nil => intro ks k; simp
  | cons r rs ih =>
      intro ks k
      rw [List.foldl_cons, ih]
      constructor
      · rintro (h | ⟨r2, hr2, he⟩)
        · rcases mem_setAdd.mp h with h2 | h2
          · exact Or.inl h2
          · exact Or.inr ⟨r, List.mem_cons_self r rs, h2.symm⟩
        · exact Or.inr ⟨r2, List.mem_cons_of_mem r hr2, he⟩
      · rintro (h | ⟨r2, hr2, he⟩)
        · exact Or.inl (mem_setAdd.mpr (Or.inl h))
        · rcases List.mem_cons.mp hr2 with rfl | hr3
          · exact Or.inl (mem_setAdd.mpr (Or.inr he.symm))
          · exact Or.inr ⟨r2, hr3, he⟩

theorem filter_insertionSort_key (p : List Result → Bool)
    (hpr : ∀ a b, p a = true → p b = true → bucketOrder a b) (l : List (List Result)) :
    (l.insertionSort bucketOrder).filter p = l.filter p := by
  have hperm : ((l.insertionSort bucketOrder).filter p).Perm (l.filter p) :=
    (List.perm_insertionSort bucketOrder l).filter p
  have hpw : (l.filter p).Pairwise bucketOrder := by
    apply List.pairwise_of_forall_mem_list
    intro a ha b hb
    exact hpr a b (List.of_mem_filter ha) (List.of_mem_filter hb)
  have hsub : (l.filter p).Sublist (l.insertionSort bucketOrder) :=
    List.sublist_insertionSort hpw (List.filter_sublist l)
  have hfix : (l.filter p).filter p = l.filter p :=
    List.filter_eq_self.mpr (fun a ha => List.of_mem_filter ha)
  have hsub2 : (l.filter p).Sublist ((l.insertionSort bucketOrder).filter p) := by
    have h3 := List.Sublist.filter p hsub
    rwa [hfix] at h3
  exact (List.Sublist.eq_of_length hsub2 hperm.symm.length_eq).symm

theorem enumFrom_map_fst : ∀ (l : List α) (n : ℕ),
    (enumFrom n l).map Prod.fst = List.range' n l.length := by
  intro l
  induction l with
  | nil => intro n; rfl
  | cons x xs ih =>
      intro n
      simp [enumFrom, List.length_cons, List.range'_succ, ih (n + 1)]

/-- Counterexample to **C8**: `render` sorts the buckets by the score of
each bucket's *first* result, not by its best score.  With one pass
`[(0,1,score 1), (0,1,score 9), (2,3,score 5)]` the `(0,1)` bucket has
first score 1 but best score 9, so it is placed after the `(2,3)`
bucket (first and best score 5), and the resulting bucket order is not
descending by best score. -/
theorem render_bucket_order_counterexample :
    ¬ List.Pairwise (fun b1 b2 => bestScore b2 ≤ bestScore b1)
        (resultsPerSubPair [[⟨0, 1, 1⟩, ⟨0, 1, 9⟩, ⟨2, 3, 5⟩]]) := by
  decide

/-- **C8 (amended).** `render` groups results into buckets keyed by the
`(sub_a, sub_b)` pair, keys in encounter order and each bucket holding
exactly the results with its key in encounter order; the buckets are
then stably sorted by descending score of each bucket's *first* result
(not its best score): the output is a permutation of the buckets,
nonempty, pairwise descending by first-result score, with buckets of
equal first score kept in encounter order (the filter at every score
value is preserved); match ids `1, 2, ...` are then assigned by
enumeration over that order. -/
theorem render_bucket_order (pass_to_results : List (List Result)) :
    ((bucketize pass_to_results).map Prod.fst).Nodup ∧
    (∀ p ∈ bucketize pass_to_results,
      p.2 = pass_to_results.flatten.filter
        (fun r => decide ((r.sub_a, r.sub_b) = p.1))) ∧
    (∀ r ∈ pass_to_results.flatten,
      (r.sub_a, r.sub_b) ∈ (bucketize pass_to_results).map Prod.fst) ∧
    (resultsPerSubPair pass_to_results).Perm
      ((bucketize pass_to_results).map Prod.snd) ∧
    (∀ b ∈ resultsPerSubPair pass_to_results, b ≠ []) ∧
    List.Pairwise (fun b1 b2 => b2.headI.score ≤ b1.headI.score)
      (resultsPerSubPair pass_to_results) ∧
    (∀ c : ℤ, (resultsPerSubPair pass_to_results).filter
        (fun b => decide (b.headI.score = c)) =
      ((bucketize pass_to_results).map Prod.snd).filter
        (fun b => decide (b.headI.score = c))) ∧
    (enumFrom 1 (resultsPerSubPair pass_to_results)).map Prod.fst =
      List.range' 1 (resultsPerSubPair pass_to_results).length := by
  have hkeys : (bucketize pass_to_results).map Prod.fst =
      pass_to_results.flatten.foldl
        (fun ks r => setAdd ks (r.sub_a, r.sub_b)) [] := by
    have h := bucketLoop_keys pass_to_results.flatten []
    simpa using h
  have hnodup : ((bucketize pass_to_results).map Prod.fst).Nodup := by
    rw [hkeys]
    exact nodup_foldl_setAdd pass_to_results.flatten [] List.nodup_nil
  have hvals : ∀ p ∈ bucketize pass_to_results,
      p.2 = pass_to_results.flatten.filter
        (fun r => decide ((r.sub_a, r.sub_b) = p.1)) := by
    intro p hp
    have h1 : dictLookup (bucketize pass_to_results) p.1 = some p.2 :=
      dictLookup_of_mem_nodup hnodup hp
    have h2a : (dictLookup (bucketize pass_to_results) p.1).getD [] =
        (dictLookup [] p.1).getD [] ++ pass_to_results.flatten.filter
          (fun r => decide ((r.sub_a, r.sub_b) = p.1)) :=
      bucketLoop_getD pass_to_results.flatten [] p.1
    rw [h1] at h2a
    simpa using h2a
  have hmemk : ∀ r ∈ pass_to_results.flatten,
      (r.sub_a, r.sub_b) ∈ (bucketize pass_to_results).map Prod.fst := by
    intro r hr
    rw [hkeys]
    exact (mem_foldl_setAdd pass_to_results.flatten [] _).mpr
      (Or.inr ⟨r, hr, rfl⟩)
  refine ⟨hnodup, hvals, hmemk, List.perm_insertionSort bucketOrder _, ?_, ?_, ?_, ?_⟩
  · intro b hb
    have hb2 : b ∈ (bucketize pass_to_results).map Prod.snd :=
      (List.mem_insertionSort bucketOrder).mp hb
    obtain ⟨p, hp, hpb⟩ := List.mem_map.mp hb2
    have hpk : p.1 ∈ (bucketize pass_to_results).map Prod.fst :=
      List.mem_map_of_mem Prod.fst hp
    rw [hkeys] at hpk
    obtain ⟨r, hr, hrk⟩ := ((mem_foldl_setAdd pass_to_results.flatten [] p.1).mp
      hpk).resolve_left (List.not_mem_nil p.1)
    intro hbe
    have h3 : r ∈ p.2 := by
      rw [hvals p hp]
      exact List.mem_filter.mpr ⟨hr, by simpa using hrk⟩
    rw [hpb, hbe] at h3
    exact List.not_mem_nil r h3
  · exact List.sorted_insertionSort bucketOrder _
  · intro c
    apply filter_insertionSort_key
    intro a b ha hb
    have ha2 : a.headI.score = c := by simpa using ha
    have hb2 : b.headI.score = c := by simpa using hb
    show b.headI.score ≤ a.headI.score
    rw [ha2, hb2]
  · exact enumFrom_map_fst _ 1

end Compare50
